import Mathlib

set_option maxHeartbeats 1600000

/-!
Verification development for `condic.py`, a lookup tool for PDIC dictionaries.

The Python source is shallowly embedded below.  Strings are modelled as
`String`/`List Char`; Python's `str.replace`, `str.lower`, `str.rstrip`,
`str.split` and `str.index` are modelled by executable Lean functions; the
regular expressions built by `lookup` are modelled by a small parser for the
fragment of Python's `re` syntax that the program's patterns use, together
with a backtracking matcher.  Fallible operations (the `ValueError` raised by
`str.index`, the `IndexError` raised by `s[0]` on an empty string, and the
`NameError` raised by the reference to the undefined name `word` on line 226)
are modelled with `Except`/`Option`.
-/

namespace Condic

/-- Apostrophe character, built numerically. -/
def apos : Char := Char.ofNat 39

/-- Python `str.lower`, per character.  Modelled for the alphabets this
program works with: ASCII plus the accented letters that appear in the
source (Esperanto ĉĝĥĵŝŭ and Spanish áéíóúüñ, with their uppercase forms). -/
def pyLowerChar (c : Char) : Char :=
  if 65 ≤ c.toNat ∧ c.toNat ≤ 90 then Char.ofNat (c.toNat + 32)
  else if c = 'Ĉ' then 'ĉ' else if c = 'Ĝ' then 'ĝ' else if c = 'Ĥ' then 'ĥ'
  else if c = 'Ĵ' then 'ĵ' else if c = 'Ŝ' then 'ŝ' else if c = 'Ŭ' then 'ŭ'
  else if c = 'Á' then 'á' else if c = 'É' then 'é' else if c = 'Í' then 'í'
  else if c = 'Ó' then 'ó' else if c = 'Ú' then 'ú' else if c = 'Ü' then 'ü'
  else if c = 'Ñ' then 'ñ' else c

/-- Python `str.lower` on a whole string. -/
def pyLowerS (s : String) : String := ⟨s.data.map pyLowerChar⟩

/-- Case-insensitive character equality, modelling `re.IGNORECASE`. -/
def ciEq (c d : Char) : Bool := pyLowerChar c = pyLowerChar d

/-- Python whitespace characters recognised by `str.rstrip()`. -/
def isPySpace (c : Char) : Bool :=
  c = ' ' || c = '\t' || c = '\n' || c = '\x0d' || c = '\x0b' || c = '\x0c'

/-- Python `str.rstrip()` with no argument: drop trailing whitespace. -/
def pyRstrip (s : String) : String :=
  ⟨(s.data.reverse.dropWhile isPySpace).reverse⟩

/-- Word characters for the regex escape `\w`, modelled for this program's
alphabets: ASCII alphanumerics, underscore, and the accented letters used by
the supported languages. -/
def isWordChar (c : Char) : Bool :=
  (48 ≤ c.toNat ∧ c.toNat ≤ 57) || (65 ≤ c.toNat ∧ c.toNat ≤ 90) ||
  (97 ≤ c.toNat ∧ c.toNat ≤ 122) || c = '_' ||
  c = 'ĉ' || c = 'ĝ' || c = 'ĥ' || c = 'ĵ' || c = 'ŝ' || c = 'ŭ' ||
  c = 'Ĉ' || c = 'Ĝ' || c = 'Ĥ' || c = 'Ĵ' || c = 'Ŝ' || c = 'Ŭ' ||
  c = 'á' || c = 'é' || c = 'í' || c = 'ó' || c = 'ú' || c = 'ü' || c = 'ñ' ||
  c = 'Á' || c = 'É' || c = 'Í' || c = 'Ó' || c = 'Ú' || c = 'Ü' || c = 'Ñ'

/-- Does the pattern `p` start the list `s`? -/
def isPfx : List Char → List Char → Bool
  | [], _ => true
  | _ :: _, [] => false
  | a :: p, b :: s => a = b && isPfx p s

/-- Does the pattern `p` occur contiguously anywhere in `s`? -/
def hasOccur (p : List Char) : List Char → Bool
  | [] => isPfx p []
  | c :: s => isPfx p (c :: s) || hasOccur p s

/-- Fuelled worker for Python `str.replace`: scan left to right, replacing
each non-overlapping occurrence of `p` by `t`.  The fuel is an upper bound
on the length of the remaining input; the recursion is structural on it so
that the kernel can evaluate the function. -/
def pyReplaceAux : Nat → List Char → List Char → List Char → List Char
  | 0, _, _, _ => []
  | Nat.succ n, s, p, t =>
    match s with
    | [] => []
    | c :: s' =>
      if isPfx p (c :: s') then t ++ pyReplaceAux n (s'.drop (p.length - 1)) p t
      else c :: pyReplaceAux n s' p t

/-- Python `str.replace` on character lists.  All patterns used in the
source are nonempty; the empty pattern is modelled as the identity. -/
def pyReplace (s p t : List Char) : List Char :=
  if p = [] then s else pyReplaceAux s.length s p t

/-- Python `str.replace` on strings. -/
def pyReplaceS (s p t : String) : String := ⟨pyReplace s.data p.data t.data⟩

/-- Apply a character-to-block map to every character and concatenate. -/
def blkJoin (g : Char → List Char) : List Char → List Char
  | [] => []
  | c :: s => g c ++ blkJoin g s

/-- Worker for Python `str.split()` with no argument restricted to spaces
(the only whitespace occurring in the source's translation tables): split on
runs of spaces, dropping empty fields. -/
def splitWsAux : List Char → List Char → List (List Char)
  | [], acc => if acc = [] then [] else [acc.reverse]
  | c :: s, acc =>
    if c = ' ' then
      if acc = [] then splitWsAux s [] else acc.reverse :: splitWsAux s []
    else splitWsAux s (c :: acc)

/-- Python `str.split()` on a string, as a list of fields. -/
def pySplit (s : String) : List String :=
  (splitWsAux s.data []).map (fun l => ⟨l⟩)

/-- The module-level function `translate(s, from_, to_)` of `condic.py`:
zip the space-separated fields of `from_` and `to_` and apply
`str.replace` for each pair in order. -/
def translate (s from_ to_ : String) : String :=
  ((pySplit from_).zip (pySplit to_)).foldl
    (fun acc ft => pyReplaceS acc ft.1 ft.2) s

/-- Python `str.index("/")`: position of the first `/`, or `none`
(modelling the raised `ValueError`). -/
def idxSlash : List Char → Option Nat
  | [] => none
  | c :: s => if c = '/' then some 0 else (idxSlash s).map (· + 1)

/-- The registered language variants of `condic.py`. -/
inductive Lang
  | bahasa
  | english
  | lojban
  | esperanto
  | espanol
deriving DecidableEq

/-- Character translation tables (`str.maketrans`) per language:
Esperanto `ĉĝĥĵŝŭ → cghjsu`, Spanish `áéíóúüñ → aeiouun`, identity
elsewhere. -/
def transChar : Lang → Char → Char
  | .esperanto, c =>
    if c = 'ĉ' then 'c' else if c = 'ĝ' then 'g' else if c = 'ĥ' then 'h'
    else if c = 'ĵ' then 'j' else if c = 'ŝ' then 's' else if c = 'ŭ' then 'u'
    else c
  | .espanol, c =>
    if c = 'á' then 'a' else if c = 'é' then 'e' else if c = 'í' then 'i'
    else if c = 'ó' then 'o' else if c = 'ú' then 'u' else if c = 'ü' then 'u'
    else if c = 'ñ' then 'n' else c
  | _, c => c

/-- `Language.asciify`: `s.translate(type(self).trans)`. -/
def asciifyL (lang : Lang) (s : String) : String :=
  ⟨s.data.map (transChar lang)⟩

/-- First argument string of Español's translation table
(`"a' e' i' o' u' u: n~ ? !"`, apostrophes built numerically). -/
def spaEscaped : String :=
  ⟨['a', apos, ' ', 'e', apos, ' ', 'i', apos, ' ', 'o', apos, ' ',
    'u', apos, ' ', 'u', ':', ' ', 'n', '~', ' ', '?', ' ', '!']⟩

/-- `decompose` per language.  Esperanto uses the default accent `"^"`;
Español decomposes accents to apostrophe/colon/tilde escapes; the other
variants inherit the identity. -/
def decomposeL : Lang → String → String
  | .esperanto, s => translate s "ĉ    ĝ    ĥ    ĵ    ŝ    ŭ" "c^ g^ h^ j^ s^ u^"
  | .espanol, s => translate s "á  é  í  ó  ú  ü  ñ  ¿  ¡" spaEscaped
  | _, s => s

/-- `compose` per language.  Lojban turns `h` into an apostrophe; Esperanto
accepts both the `^` and the `x` escape spellings; Español is the inverse
direction of its `decompose`; the other variants inherit the identity. -/
def composeL : Lang → String → String
  | .lojban, s => pyReplaceS s "h" ⟨[apos]⟩
  | .esperanto, s =>
    let s := translate s "c^ g^ h^ j^ s^ u^" "ĉ ĝ ĥ ĵ ŝ ŭ"
    translate s "cx gx hx jx sx ux" "ĉ ĝ ĥ ĵ ŝ ŭ"
  | .espanol, s => translate s spaEscaped "á  é  í  ó  ú  ü  ñ  ¿  ¡"
  | _, s => s

/-- The exception word list of `Esperanto.normalize`. -/
def epoExc : List (List Char) :=
  ["bis", "cis", "gxis", "cxiu", "cxu", "du", "hu", "iu", "ju", "plu",
   "kiu", "mu", "neniu", "unu", "nu", "plu", "tiu", "u", "jxus", "minus",
   "plus"].map String.data

/-- Python `s.strip("*")`: drop leading and trailing `*` characters. -/
def stripStar (l : List Char) : List Char :=
  ((l.dropWhile (· = '*')).reverse.dropWhile (· = '*')).reverse

/-- Python `s[-2:]`: the last two characters (fewer if the list is short). -/
def last2 (l : List Char) : List Char := (l.reverse.take 2).reverse

/-- `Esperanto.normalize`: turn a verb into base form, caring wildcards.
`s[0]` raises `IndexError` on the empty string, modelled as `none`. -/
def esperantoNormalize (s : String) : Option String :=
  match s.data.head?, s.data.getLast? with
  | some c0, some cn =>
    let pre : List Char := if c0 = '*' then ['*'] else []
    let suf : List Char := if cn = '*' then ['*'] else []
    let core := stripStar s.data
    if epoExc.contains core then some ⟨pre ++ core ++ suf⟩
    else
      let c1 := if core.getLast? = some 'u' then core.dropLast ++ ['i'] else core
      let c2 :=
        if last2 c1 = ['a', 's'] ∨ last2 c1 = ['i', 's'] ∨
           last2 c1 = ['o', 's'] ∨ last2 c1 = ['u', 's'] then
          c1.dropLast.dropLast ++ ['i']
        else c1
      some ⟨pre ++ c2 ++ suf⟩
  | _, _ => none

/-- `Bahasa_Indonesia.normalize`: allow a phonetically changed form after a
wildcard.  The `phonetic_change` dict iterates `k, p, s, t` in insertion
order. -/
def bahasaNormalize (s : String) : String :=
  let s := pyReplaceS s "*k" "*(k|g)"
  let s := pyReplaceS s "*p" "*(p|m)"
  let s := pyReplaceS s "*s" "*(s|ny)"
  pyReplaceS s "*t" "*(t|n)"

/-- `normalize` per language; `none` models a raised `IndexError`. -/
def normalizeL : Lang → String → Option String
  | .esperanto, s => esperantoNormalize s
  | .bahasa, s => some (bahasaNormalize s)
  | _, s => some s

/-! ### Regular expressions

The patterns compiled by `lookup` are built textually from the query word
(with `*` replaced by `\w*`) plus the fixed anchoring text
`"^...[.]?(,[^/]+)?( #[0-9]+)? /"` in headword mode.  We model the fragment
of Python `re` syntax reachable this way: case-insensitive literals, `.`,
`\w`, the character classes `[c]`, `[^c]`, `[a-b]`, the postfix operators
`*`, `+`, `?`, and optional non-capturing use of `(...)?`.  Anything else
fails to parse (`none`), keeping the model honest about its scope. -/

/-- Character classes of the modelled regex fragment. -/
inductive CC
  | lit (c : Char)
  | wordc
  | anyc
  | notChar (c : Char)
  | range (a b : Char)
deriving DecidableEq

/-- Atom of a compiled pattern: one occurrence of a class, or zero or more
occurrences of a class. -/
inductive Atom
  | one (p : CC)
  | many (p : CC)
deriving DecidableEq

/-- Token of a compiled pattern: an atom, or an optional group of atoms
(the program's patterns never nest groups, and the parser below rejects
nesting). -/
inductive Tok
  | one (p : CC)
  | many (p : CC)
  | opt (g : List Atom)
deriving DecidableEq

/-- View an atom as a token. -/
def ofAtom : Atom → Tok
  | .one p => .one p
  | .many p => .many p

/-- View a token as an atom, when it is one. -/
def toAtom : Tok → Option Atom
  | .one p => some (.one p)
  | .many p => some (.many p)
  | .opt _ => none

/-- Does character `d` match class `p`?  Literals compare
case-insensitively (all patterns are compiled with `re.I`); `.` matches
anything except a newline. -/
def ccMatch : CC → Char → Bool
  | .lit c, d => ciEq c d
  | .wordc, d => isWordChar d
  | .anyc, d => d ≠ '\n'
  | .notChar c, d => d ≠ c
  | .range a b, d => a.toNat ≤ d.toNat && d.toNat ≤ b.toNat

/-- Weight of one token in the matcher's fuel bound. -/
def tokW : Tok → Nat
  | .one _ => 1
  | .many _ => 1
  | .opt g => g.length + 2

/-- Size measure of a token list, used to bound the matcher's fuel. -/
def tsSize : List Tok → Nat
  | [] => 0
  | t :: ts => tokW t + tsSize ts

/-- Fuelled backtracking matcher: does some prefix of `s` match the token
sequence?  Each recursive call strictly decreases `s.length + tsSize toks`,
so fuel `s.length + tsSize toks + 1` always suffices. -/
def toksMatchAux : Nat → List Tok → List Char → Bool
  | 0, _, _ => false
  | Nat.succ _, [], _ => true
  | Nat.succ n, .one p :: ts, s =>
    match s with
    | [] => false
    | c :: s' => ccMatch p c && toksMatchAux n ts s'
  | Nat.succ n, .many p :: ts, s =>
    toksMatchAux n ts s ||
      (match s with
       | [] => false
       | c :: s' => ccMatch p c && toksMatchAux n (.many p :: ts) s')
  | Nat.succ n, .opt g :: ts, s =>
    toksMatchAux n (g.map ofAtom ++ ts) s || toksMatchAux n ts s

/-- Match a token sequence against some prefix of `s`. -/
def toksMatch (toks : List Tok) (s : List Char) : Bool :=
  toksMatchAux (s.length + tsSize toks + 1) toks s

/-- Unanchored search: does the pattern match starting at some position? -/
def anyTailMatch (toks : List Tok) : List Char → Bool
  | [] => toksMatch toks []
  | c :: s => toksMatch toks (c :: s) || anyTailMatch toks s

/-- Attach a postfix operator (`*`, `+`, `?`, or nothing) to a class,
returning the produced tokens and the remaining input. -/
def posfx (p : CC) : List Char → List Tok × List Char
  | '*' :: r => ([.many p], r)
  | '+' :: r => ([.one p, .many p], r)
  | '?' :: r => ([.opt [.one p]], r)
  | r => ([.one p], r)

/-- Characters the parser accepts as plain literals (regex
non-metacharacters occurring in this program's patterns and queries). -/
def isPlainLit (c : Char) : Bool :=
  (48 ≤ c.toNat ∧ c.toNat ≤ 57) || (65 ≤ c.toNat ∧ c.toNat ≤ 90) ||
  (97 ≤ c.toNat ∧ c.toNat ≤ 122) || c = ' ' || c = '-' || c = '/' ||
  c = '#' || c = ',' || c = '_' || c = '!' || c = ':' || c = ';' ||
  c = '~' || c = '<' || c = '>' || c = '=' || c = '%' || c = '&' ||
  c = '"' || c = '@' || 127 < c.toNat

/-- Take the characters before the first `)`. -/
def takeUntilRp : List Char → List Char
  | [] => []
  | c :: s => if c = ')' then [] else c :: takeUntilRp s

/-- Drop the characters before the first `)`. -/
def dropUntilRp : List Char → List Char
  | [] => []
  | c :: s => if c = ')' then c :: s else dropUntilRp s

/-- Fuelled parser for the modelled regex fragment.  Groups must be
followed by `?` and must not nest, as in the program's patterns; every
step consumes at least one character, so fuel `length + 1` suffices. -/
def parseRx : Nat → List Char → Option (List Tok)
  | 0, _ => none
  | Nat.succ _, [] => some []
  | Nat.succ n, c :: r =>
    if c = '(' then
      if (takeUntilRp r).any (fun x => x = '(') then none
      else
        match dropUntilRp r with
        | c1 :: c2 :: r' =>
          if c1 = ')' ∧ c2 = '?' then do
            let g ← parseRx n (takeUntilRp r)
            let ga ← g.mapM toAtom
            let ts ← parseRx n r'
            pure (Tok.opt ga :: ts)
          else none
        | _ => none
    else if c = '\\' then
      match r with
      | c1 :: r1 =>
        if c1 = 'w' then
          let pr := posfx CC.wordc r1
          (pr.1 ++ ·) <$> parseRx n pr.2
        else none
      | [] => none
    else if c = '[' then
      match r with
      | c1 :: r1 =>
        if c1 = '^' then
          match r1 with
          | c2 :: c3 :: r2 =>
            if c3 = ']' then
              let pr := posfx (CC.notChar c2) r2
              (pr.1 ++ ·) <$> parseRx n pr.2
            else none
          | _ => none
        else
          match r1 with
          | c2 :: r2 =>
            if c2 = ']' then
              let pr := posfx (CC.lit c1) r2
              (pr.1 ++ ·) <$> parseRx n pr.2
            else if c2 = '-' then
              match r2 with
              | c3 :: c4 :: r3 =>
                if c4 = ']' then
                  let pr := posfx (CC.range c1 c3) r3
                  (pr.1 ++ ·) <$> parseRx n pr.2
                else none
              | _ => none
            else none
          | [] => none
      | [] => none
    else if c = '.' then
      let pr := posfx CC.anyc r
      (pr.1 ++ ·) <$> parseRx n pr.2
    else if isPlainLit c then
      let pr := posfx (CC.lit c) r
      (pr.1 ++ ·) <$> parseRx n pr.2
    else none

/-- Compile a pattern string: a leading `^` anchors the search (there is no
`re.MULTILINE`, so `^` matches only at the start of the text). -/
def compileRx (p : String) : Option (Bool × List Tok) :=
  match p.data with
  | '^' :: r => (parseRx (r.length + 1) r).map (fun ts => (true, ts))
  | r => (parseRx (r.length + 1) r).map (fun ts => (false, ts))

/-- `regex.search(t)` for a compiled pattern. -/
def rxSearchB (rx : Bool × List Tok) (t : String) : Bool :=
  if rx.1 then toksMatch rx.2 t.data else anyTailMatch rx.2 t.data

/-! ### The `lookup` function -/

/-- Options of `lookup`, mirroring the `opts` dict plus the `doublespace`
keyword.  `asc` is the `asciify` option (the caller passes the language's
`asciify`, or the identity for `--literal`). -/
structure LOpts where
  reverse : Bool
  phrase : Bool
  norm : Bool
  verbose : Bool
  doublespace : Bool
  asc : String → String

/-- Runtime failures of `lookup`: `ValueError` from `line.index("/")` on a
line without a separator, `IndexError` from `normalize` on an empty word,
`NameError` from the undefined name `word` on line 226, and a marker for
patterns outside the modelled regex fragment. -/
inductive LErr
  | valueError
  | indexError
  | nameError
  | unmodeledRx
deriving DecidableEq

/-- The fixed anchoring suffix of the headword pattern on line 205 of the
source. -/
def sufStr : String := "[.]?(,[^/]+)?( #[0-9]+)? /"

/-- The pattern strings built from the (composed, optionally normalized)
words, as on lines 200-205 of the source. -/
def buildPats (ws : List String) (o : LOpts) : List String :=
  let pats := ws.map (fun w => pyReplaceS (o.asc w) "*" "\\w*")
  if !o.reverse then
    if o.phrase then pats.map (fun p => p ++ " ")
    else pats.map (fun p => "^" ++ p ++ sufStr)
  else pats

/-- The comparison text for one line: the asciified whole line in reverse
mode, otherwise the asciified text up to and including the first `/`
(`none` models the `ValueError` when there is none).  A line of the file
carries its trailing newline, modelled by appending `"\n"`. -/
def compTextO (o : LOpts) (line : String) : Option String :=
  let full := line ++ "\n"
  if o.reverse then some (o.asc full)
  else (idxSlash full.data).map (fun i => o.asc ⟨full.data.take (i + 1)⟩)

/-- The scanning loop of `lookup` over the file's lines.  Returns the final
`found` and `results` counters and the printed lines (a `""` entry is a
blank separator line). -/
def scan (rxs : List (Bool × List Tok)) (o : LOpts) :
    List String → Nat → Nat → Except LErr (Nat × Nat × List String)
  | [], found, results => .ok (found, results, [])
  | line :: rest, found, results =>
    match compTextO o line with
    | none => .error .valueError
    | some t =>
      let k := (rxs.filter (fun r => rxSearchB r t)).length
      if 0 < k then
        match scan rxs o rest (found + k) (results + 1) with
        | .error e => .error e
        | .ok (f, r, out) =>
          .ok (f, r, (if o.doublespace && !(results = 0) then [""] else []) ++
                pyRstrip line :: out)
      else scan rxs o rest (found + k) results

/-- The `lookup` function of `condic.py`, over the line contents of the
dictionary file (each line given without its trailing newline).  Output is
the list of printed lines; `Except.error` models an uncaught Python
exception. -/
def lookup (words : List String) (lang : Lang) (dict : List String)
    (o : LOpts) : Except LErr (List String) := do
  let ws := words.map (fun w => composeL lang (pyLowerS w))
  let ws ←
    if o.norm then
      match ws.mapM (normalizeL lang) with
      | some l => pure l
      | none => Except.error .indexError
    else pure ws
  let rxs ←
    match (buildPats ws o).mapM compileRx with
    | some l => pure l
    | none => Except.error .unmodeledRx
  match scan rxs o dict 0 0 with
  | .error e => Except.error e
  | .ok (found, _, out) =>
    if found = 0 && o.verbose then Except.error .nameError
    else pure out

/-! ### Derived notions used by the specification statements -/

instance : DecidableEq (Except LErr (List String)) := fun a b =>
  match a, b with
  | .ok x, .ok y =>
    if h : x = y then .isTrue (by rw [h])
    else .isFalse (by intro hc; cases hc; exact h rfl)
  | .error x, .error y =>
    if h : x = y then .isTrue (by rw [h])
    else .isFalse (by intro hc; cases hc; exact h rfl)
  | .ok _, .error _ => .isFalse (by intro hc; cases hc)
  | .error _, .ok _ => .isFalse (by intro hc; cases hc)

/-- Is `c` a lowercase ASCII letter or a digit? -/
def isLowerAlnum (c : Char) : Bool :=
  (97 ≤ c.toNat ∧ c.toNat ≤ 122) || (48 ≤ c.toNat ∧ c.toNat ≤ 57)

/-- Is `c` an ASCII letter (either case) or a digit? -/
def isAlnumAscii (c : Char) : Bool :=
  (48 ≤ c.toNat ∧ c.toNat ≤ 57) || (65 ≤ c.toNat ∧ c.toNat ≤ 90) ||
  (97 ≤ c.toNat ∧ c.toNat ≤ 122)

/-- Pointwise case-insensitive equality of two character lists. -/
def ciList : List Char → List Char → Bool
  | [], [] => true
  | c :: w, d :: s => ciEq c d && ciList w s
  | _, _ => false

/-- Case-insensitive prefix: does `w` match the beginning of `s`? -/
def ciPfx : List Char → List Char → Bool
  | [], _ => true
  | _ :: _, [] => false
  | c :: w, d :: s => ciEq c d && ciPfx w s

/-- Case-insensitive substring containment of `w` in `s`. -/
def ciSub (w : List Char) : List Char → Bool
  | [] => ciPfx w []
  | c :: s => ciPfx w (c :: s) || ciSub w s

/-- The literal tokens of a word without wildcards. -/
def litToks (w : List Char) : List Tok := w.map (fun c => Tok.one (CC.lit c))

/-- The tokens a word over letters, digits and `*` compiles to. -/
def globToks (w : List Char) : List Tok :=
  w.map (fun c => if c = '*' then Tok.many CC.wordc else Tok.one (CC.lit c))

/-- Modelled from the spec: "the wildcard character `*` in the word is
translated to match zero or more word characters; all other characters are
matched literally, case-insensitively".  `globStar k` consumes zero or more
word characters and then continues with `k`. -/
def globStar (k : List Char → Bool) : List Char → Bool
  | [] => k []
  | c :: s => k (c :: s) || (isWordChar c && globStar k s)

/-- Modelled from the spec: match a word with `*` wildcards against a
prefix of the text, literally and case-insensitively. -/
def globHere : List Char → List Char → Bool
  | [], _ => true
  | c :: w, s =>
    if c = '*' then globStar (globHere w) s
    else
      match s with
      | [] => false
      | d :: s' => ciEq c d && globHere w s'

/-- Modelled from the spec: search a glob anywhere in the text. -/
def globSearch (w : List Char) : List Char → Bool
  | [] => globHere w []
  | c :: s => globHere w (c :: s) || globSearch w s

/-- Blank separator lines between consecutive entries, as produced by the
`doublespace` option. -/
def sepBlank : List String → List String
  | [] => []
  | [a] => [a]
  | a :: b :: t => a :: "" :: sepBlank (b :: t)

/-- Does a dictionary line match any of the compiled patterns? -/
def lineHit (rxs : List (Bool × List Tok)) (o : LOpts) (line : String) :
    Bool :=
  match compTextO o line with
  | some t => rxs.any (fun r => rxSearchB r t)
  | none => false

/-- Does the line contain the field separator character? -/
def hasSlash (l : String) : Bool := decide ('/' ∈ l.data)

/-- Is `w` free of the Esperanto escape digraphs `cx gx hx jx sx ux`
that `compose` would contract? -/
def noDigraphs (w : List Char) : Bool :=
  !(hasOccur ['c', 'x'] w) && !(hasOccur ['g', 'x'] w) &&
  !(hasOccur ['h', 'x'] w) && !(hasOccur ['j', 'x'] w) &&
  !(hasOccur ['s', 'x'] w) && !(hasOccur ['u', 'x'] w)

/-- Do all the patterns a query builds fall in the modelled regex
fragment?  (With `normalize` unset, `lookup` compiles exactly these.) -/
def patsOk (words : List String) (lang : Lang) (o : LOpts) : Bool :=
  ((buildPats (words.map (fun w => composeL lang (pyLowerS w))) o).mapM
    compileRx).isSome

/-- The pattern text built from one word on line 200 of the source. -/
def wordPat (w : String) : String := pyReplaceS w "*" "\\w*"

/-- Compile a pattern string and search it in `s` (`none` when the pattern
falls outside the modelled fragment). -/
def rxSearchStr (p : String) (s : String) : Option Bool :=
  (compileRx p).map (fun rx => rxSearchB rx s)

/-- Default options as `main` passes them for Esperanto without
`--literal`: everything off, `asciify` from the language. -/
def epoStd : LOpts := ⟨false, false, false, false, false, asciifyL .esperanto⟩

/-- Esperanto options with reverse (description) search. -/
def epoRev : LOpts := ⟨true, false, false, false, false, asciifyL .esperanto⟩

/-- Esperanto options with the verbose diagnostic enabled. -/
def epoVerbose : LOpts :=
  ⟨false, false, false, true, false, asciifyL .esperanto⟩

/-- Esperanto options with double spacing enabled. -/
def epoDouble : LOpts :=
  ⟨false, false, false, false, true, asciifyL .esperanto⟩

/-- The six Esperanto diacritic letters together with lowercase ASCII. -/
def epoLetter (c : Char) : Bool :=
  c = 'ĉ' || c = 'ĝ' || c = 'ĥ' || c = 'ĵ' || c = 'ŝ' || c = 'ŭ' ||
  (97 ≤ c.toNat ∧ c.toNat ≤ 122)

/-- Character-to-block map of Esperanto `decompose`. -/
def decChar (c : Char) : List Char :=
  if c = 'ĉ' then ['c', '^'] else if c = 'ĝ' then ['g', '^']
  else if c = 'ĥ' then ['h', '^'] else if c = 'ĵ' then ['j', '^']
  else if c = 'ŝ' then ['s', '^'] else if c = 'ŭ' then ['u', '^']
  else [c]

/-- Character-to-block map realising `word.replace("*", r"\\w*")`. -/
def buildC (c : Char) : List Char :=
  if c = '*' then ['\\', 'w', '*'] else [c]

/-- The tokens the anchoring suffix `sufStr` parses to. -/
def sufToks : List Tok :=
  [.opt [.one (.lit '.')],
   .opt [.one (.lit ','), .one (.notChar '/'), .many (.notChar '/')],
   .opt [.one (.lit ' '), .one (.lit '#'), .one (.range '0' '9'),
         .many (.range '0' '9')],
   .one (.lit ' '), .one (.lit '/')]

/-- Does `r` not begin with a postfix regex operator? -/
def notPostfix (r : List Char) : Prop :=
  r.head? ≠ some '*' ∧ r.head? ≠ some '+' ∧ r.head? ≠ some '?'

/-- The block map of the decomposed text after the diacritics listed in
`done` have been recomposed by the leading `compose` passes. -/
def decCharAfter (done : List Char) (c : Char) : List Char :=
  if c ∈ done then [c] else decChar c

/-! ## Lemmas about the fuelled workers -/

theorem tokW_pos (t : Tok) : 0 < tokW t := by
  cases t <;> simp [tokW]

theorem tsSize_append (a b : List Tok) :
    tsSize (a ++ b) = tsSize a + tsSize b := by
  induction a with
  | nil => simp [tsSize]
  | cons t ts ih => simp [tsSize, ih]; omega

theorem tsSize_map_ofAtom (g : List Atom) :
    tsSize (g.map ofAtom) = g.length := by
  induction g with
  | nil => simp [tsSize]
  | cons a g ih => cases a <;> simp [tsSize, ofAtom, tokW, ih] <;> omega

theorem toksMatchAux_irrel :
    ∀ (k : Nat) (toks : List Tok) (s : List Char),
      s.length + tsSize toks ≤ k →
      ∀ n₁ n₂, s.length + tsSize toks < n₁ → s.length + tsSize toks < n₂ →
      toksMatchAux n₁ toks s = toksMatchAux n₂ toks s := by
  intro k
  induction k with
  | zero =>
    intro toks s hk n₁ n₂ h₁ h₂
    have hs : s = [] := by
      cases s with
      | nil => rfl
      | cons c s' => simp at hk
    have ht : toks = [] := by
      cases toks with
      | nil => rfl
      | cons t ts => have := tokW_pos t; simp [tsSize] at hk; omega
    subst hs; subst ht
    cases n₁ with
    | zero => omega
    | succ m₁ =>
      cases n₂ with
      | zero => omega
      | succ m₂ => simp [toksMatchAux]
  | succ k ih =>
    intro toks s hk n₁ n₂ h₁ h₂
    cases n₁ with
    | zero => omega
    | succ m₁ =>
    cases n₂ with
    | zero => omega
    | succ m₂ =>
    cases toks with
    | nil => simp [toksMatchAux]
    | cons t ts =>
      cases t with
      | one p =>
        cases s with
        | nil => simp [toksMatchAux]
        | cons c s' =>
          simp only [toksMatchAux]
          simp only [tsSize, tokW, List.length_cons] at hk h₁ h₂
          rw [ih ts s' (by omega) m₁ m₂ (by omega) (by omega)]
      | many p =>
        cases s with
        | nil =>
          simp only [toksMatchAux]
          simp only [tsSize, tokW, List.length_nil] at hk h₁ h₂
          rw [ih ts [] (show 0 + tsSize ts ≤ k by omega) m₁ m₂
                (show 0 + tsSize ts < m₁ by omega)
                (show 0 + tsSize ts < m₂ by omega)]
        | cons c s' =>
          simp only [toksMatchAux]
          simp only [tsSize, tokW, List.length_cons] at hk h₁ h₂
          rw [ih ts (c :: s') (by simp [tsSize]; omega) m₁ m₂
                (by simp [tsSize]; omega) (by simp [tsSize]; omega),
              ih (.many p :: ts) s' (by simp [tsSize, tokW]; omega) m₁ m₂
                (by simp [tsSize, tokW]; omega) (by simp [tsSize, tokW]; omega)]
      | opt g =>
        simp only [toksMatchAux]
        simp only [tsSize, tokW] at hk h₁ h₂
        rw [ih (g.map ofAtom ++ ts) s
              (by simp only [tsSize_append, tsSize_map_ofAtom]; omega) m₁ m₂
              (by simp only [tsSize_append, tsSize_map_ofAtom]; omega)
              (by simp only [tsSize_append, tsSize_map_ofAtom]; omega),
            ih ts s (by omega) m₁ m₂ (by omega) (by omega)]

theorem toksMatchAux_big {n : Nat} (toks : List Tok) (s : List Char)
    (h : s.length + tsSize toks < n) :
    toksMatchAux n toks s = toksMatch toks s :=
  toksMatchAux_irrel (s.length + tsSize toks) toks s (Nat.le_refl _) n _ h
    (Nat.lt_succ_self _)

theorem tm_nil (s : List Char) : toksMatch [] s = true := by
  rw [← toksMatchAux_big (n := s.length + tsSize [] + 1) [] s
        (Nat.lt_succ_self _)]
  simp only [toksMatchAux]

theorem tm_one_nil (p : CC) (ts : List Tok) :
    toksMatch (.one p :: ts) [] = false := by
  rw [← toksMatchAux_big (n := [].length + tsSize (Tok.one p :: ts) + 1)
        (.one p :: ts) [] (Nat.lt_succ_self _)]
  simp only [toksMatchAux]

theorem tm_one_cons (p : CC) (ts : List Tok) (c : Char) (s : List Char) :
    toksMatch (.one p :: ts) (c :: s) = (ccMatch p c && toksMatch ts s) := by
  rw [← toksMatchAux_big (n := (c :: s).length + tsSize (Tok.one p :: ts) + 1)
        (.one p :: ts) (c :: s) (Nat.lt_succ_self _)]
  simp only [toksMatchAux]
  rw [toksMatchAux_big ts s (by simp only [tsSize, tokW, tsSize_append, tsSize_map_ofAtom, List.length_nil, List.length_cons]; omega)]

theorem tm_many_nil (p : CC) (ts : List Tok) :
    toksMatch (.many p :: ts) [] = toksMatch ts [] := by
  rw [← toksMatchAux_big (n := [].length + tsSize (Tok.many p :: ts) + 1)
        (.many p :: ts) [] (Nat.lt_succ_self _)]
  simp only [toksMatchAux]
  rw [toksMatchAux_big ts [] (by simp only [tsSize, tokW, tsSize_append, tsSize_map_ofAtom, List.length_nil, List.length_cons]; omega)]
  simp

theorem tm_many_cons (p : CC) (ts : List Tok) (c : Char) (s : List Char) :
    toksMatch (.many p :: ts) (c :: s) =
      (toksMatch ts (c :: s) || (ccMatch p c && toksMatch (.many p :: ts) s)) := by
  rw [← toksMatchAux_big (n := (c :: s).length + tsSize (Tok.many p :: ts) + 1)
        (.many p :: ts) (c :: s) (Nat.lt_succ_self _)]
  simp only [toksMatchAux]
  rw [toksMatchAux_big ts (c :: s) (by simp only [tsSize, tokW, tsSize_append, tsSize_map_ofAtom, List.length_nil, List.length_cons]; omega),
      toksMatchAux_big (.many p :: ts) s (by simp only [tsSize, tokW, tsSize_append, tsSize_map_ofAtom, List.length_nil, List.length_cons]; omega)]

theorem pyReplaceAux_irrel :
    ∀ (k : Nat) (s p t : List Char), s.length ≤ k →
      ∀ n₁ n₂, s.length ≤ n₁ → s.length ≤ n₂ →
      pyReplaceAux n₁ s p t = pyReplaceAux n₂ s p t := by
  intro k
  induction k with
  | zero =>
    intro s p t hk n₁ n₂ h₁ h₂
    have hs : s = [] := List.eq_nil_of_length_eq_zero (Nat.le_zero.mp hk)
    subst hs
    cases n₁ <;> cases n₂ <;> simp [pyReplaceAux]
  | succ k ih =>
    intro s p t hk n₁ n₂ h₁ h₂
    cases s with
    | nil => cases n₁ <;> cases n₂ <;> simp [pyReplaceAux]
    | cons c s' =>
      simp only [List.length_cons] at hk h₁ h₂
      cases n₁ with
      | zero => omega
      | succ m₁ =>
      cases n₂ with
      | zero => omega
      | succ m₂ =>
      simp only [pyReplaceAux]
      split_ifs with hp
      · rw [ih (s'.drop (p.length - 1)) p t
              (by rw [List.length_drop]; omega) m₁ m₂
              (by rw [List.length_drop]; omega)
              (by rw [List.length_drop]; omega)]
      · rw [ih s' p t (by omega) m₁ m₂ (by omega) (by omega)]

theorem pyReplaceAux_big {n : Nat} (s p t : List Char) (hp : p ≠ [])
    (h : s.length ≤ n) : pyReplaceAux n s p t = pyReplace s p t := by
  unfold pyReplace
  rw [if_neg hp]
  exact pyReplaceAux_irrel s.length s p t (Nat.le_refl _) n _ h (Nat.le_refl _)

theorem pr_nil (p t : List Char) : pyReplace [] p t = [] := by
  unfold pyReplace
  split_ifs with hp
  · rfl
  · cases h : ([] : List Char).length <;> simp [pyReplaceAux]

theorem pr_match (c : Char) (s' p t : List Char) (hpne : p ≠ [])
    (hp : isPfx p (c :: s') = true) :
    pyReplace (c :: s') p t = t ++ pyReplace (s'.drop (p.length - 1)) p t := by
  conv_lhs => unfold pyReplace
  rw [if_neg hpne]
  simp only [List.length_cons, pyReplaceAux]
  rw [if_pos hp]
  rw [pyReplaceAux_big _ p t hpne (by rw [List.length_drop]; omega)]

theorem pr_nomatch (c : Char) (s' p t : List Char) (hpne : p ≠ [])
    (hp : isPfx p (c :: s') = false) :
    pyReplace (c :: s') p t = c :: pyReplace s' p t := by
  conv_lhs => unfold pyReplace
  rw [if_neg hpne]
  simp only [List.length_cons, pyReplaceAux]
  rw [if_neg (by simp [hp])]
  rw [pyReplaceAux_big s' p t hpne (Nat.le_refl _)]

theorem takeUntilRp_le (r : List Char) : (takeUntilRp r).length ≤ r.length := by
  induction r with
  | nil => simp [takeUntilRp]
  | cons c r ih =>
    simp only [takeUntilRp]
    split_ifs <;> (simp; try omega)

theorem dropUntilRp_le (r : List Char) : (dropUntilRp r).length ≤ r.length := by
  induction r with
  | nil => simp [dropUntilRp]
  | cons c r ih =>
    simp only [dropUntilRp]
    split_ifs <;> (simp; try omega)

theorem posfx_snd_le (p : CC) (r : List Char) :
    (posfx p r).2.length ≤ r.length := by
  unfold posfx
  split <;> simp

theorem parseRx_irrel :
    ∀ (k : Nat) (s : List Char), s.length ≤ k →
      ∀ n₁ n₂, s.length < n₁ → s.length < n₂ →
      parseRx n₁ s = parseRx n₂ s := by
  intro k
  induction k with
  | zero =>
    intro s hk n₁ n₂ h₁ h₂
    have hs : s = [] := List.eq_nil_of_length_eq_zero (Nat.le_zero.mp hk)
    subst hs
    cases n₁ with
    | zero => omega
    | succ m₁ =>
      cases n₂ with
      | zero => omega
      | succ m₂ => simp [parseRx]
  | succ k ih =>
    intro s hk n₁ n₂ h₁ h₂
    cases n₁ with
    | zero => omega
    | succ m₁ =>
    cases n₂ with
    | zero => omega
    | succ m₂ =>
    cases s with
    | nil => simp [parseRx]
    | cons c r =>
      simp only [List.length_cons] at hk h₁ h₂
      have hr : ∀ (u : List Char), u.length ≤ r.length →
          parseRx m₁ u = parseRx m₂ u := fun u hu =>
        ih u (by omega) m₁ m₂ (by omega) (by omega)
      have hpos : ∀ (p : CC) (u : List Char), u.length ≤ r.length →
          ((posfx p u).1 ++ ·) <$> parseRx m₁ (posfx p u).2 =
          ((posfx p u).1 ++ ·) <$> parseRx m₂ (posfx p u).2 := fun p u hu => by
        rw [hr _ (Nat.le_trans (posfx_snd_le p u) hu)]
      simp only [parseRx]
      split_ifs with hc1 hany hc2 hc3 hc4 hc5
      · rfl
      · -- group arm
        rcases hdl : dropUntilRp r with _ | ⟨c1, _ | ⟨c2, r'⟩⟩
        · rfl
        · rfl
        · have h2 : r'.length ≤ r.length := by
            have := dropUntilRp_le r
            rw [hdl] at this
            simp only [List.length_cons] at this
            omega
          dsimp only
          split_ifs with hq
          · rw [hr (takeUntilRp r) (takeUntilRp_le r), hr r' h2]
          · rfl
      · -- backslash arm
        rcases r with _ | ⟨c1, r1⟩
        · rfl
        · dsimp only
          split_ifs with hw
          · exact hpos CC.wordc r1 (by simp)
          · rfl
      · -- bracket arm
        rcases r with _ | ⟨c1, r1⟩
        · rfl
        · dsimp only
          split_ifs with hneg
          · rcases r1 with _ | ⟨c2, _ | ⟨c3, r2⟩⟩
            · rfl
            · rfl
            · dsimp only
              split_ifs with hrb
              · exact hpos (CC.notChar c2) r2 (by simp; omega)
              · rfl
          · rcases r1 with _ | ⟨c2, r2⟩
            · rfl
            · dsimp only
              split_ifs with hrb hdash
              · exact hpos (CC.lit c1) r2 (by simp; omega)
              · rcases r2 with _ | ⟨c3, _ | ⟨c4, r3⟩⟩
                · rfl
                · rfl
                · dsimp only
                  split_ifs with hrb2
                  · exact hpos (CC.range c1 c3) r3 (by simp; omega)
                  · rfl
              · rfl
      · -- dot arm
        exact hpos CC.anyc r (Nat.le_refl _)
      · -- plain literal arm
        exact hpos (CC.lit c) r (Nat.le_refl _)
      · rfl

theorem tm_opt (g : List Atom) (ts : List Tok) (s : List Char) :
    toksMatch (.opt g :: ts) s =
      (toksMatch (g.map ofAtom ++ ts) s || toksMatch ts s) := by
  rw [← toksMatchAux_big (n := s.length + tsSize (Tok.opt g :: ts) + 1)
        (.opt g :: ts) s (Nat.lt_succ_self _)]
  simp only [toksMatchAux]
  rw [toksMatchAux_big (g.map ofAtom ++ ts) s (by simp only [tsSize, tokW, tsSize_append, tsSize_map_ofAtom, List.length_nil, List.length_cons]; omega),
      toksMatchAux_big ts s (by simp only [tsSize, tokW, tsSize_append, tsSize_map_ofAtom, List.length_nil, List.length_cons]; omega)]


theorem parseRx_big {n : Nat} (s : List Char) (h : s.length < n) :
    parseRx n s = parseRx (s.length + 1) s :=
  parseRx_irrel s.length s (Nat.le_refl _) n _ h (Nat.lt_succ_self _)

theorem posfx_default (p : CC) (r : List Char) (h : notPostfix r) :
    posfx p r = ([.one p], r) := by
  obtain ⟨h1, h2, h3⟩ := h
  unfold posfx
  split
  · simp at h1
  · simp at h2
  · simp at h3
  · rfl

theorem isLowerAlnum_notSpecial (c : Char) (hc : isLowerAlnum c = true) :
    c ≠ '(' ∧ c ≠ '\\' ∧ c ≠ '[' ∧ c ≠ '.' ∧ c ≠ '*' ∧ c ≠ '+' ∧
      c ≠ '?' ∧ c ≠ '^' ∧ c ≠ '/' ∧ c ≠ '\n' ∧ isPlainLit c = true := by
  refine ⟨?_, ?_, ?_, ?_, ?_, ?_, ?_, ?_, ?_, ?_, ?_⟩
  all_goals first
  | (intro hx; rw [hx] at hc; exact absurd hc (by decide))
  | (simp only [isLowerAlnum, Bool.or_eq_true, decide_eq_true_eq] at hc
     simp only [isPlainLit, Bool.or_eq_true, decide_eq_true_eq]
     tauto)

theorem parse_lit_step (c : Char) (r : List Char) (hc : isLowerAlnum c = true)
    (h : notPostfix r) :
    parseRx (r.length + 2) (c :: r) =
      (Tok.one (CC.lit c) :: ·) <$> parseRx (r.length + 1) r := by
  obtain ⟨h1, h2, h3, h4, -, -, -, -, -, -, hlp⟩ := isLowerAlnum_notSpecial c hc
  simp only [parseRx]
  rw [if_neg h1, if_neg h2, if_neg h3, if_neg h4, if_pos hlp]
  rw [posfx_default _ _ h]
  rfl

theorem parse_wstar_step (r : List Char) :
    parseRx (r.length + 4) ('\\' :: 'w' :: '*' :: r) =
      (Tok.many CC.wordc :: ·) <$> parseRx (r.length + 1) r := by
  have hbig : parseRx (r.length + 3) r = parseRx (r.length + 1) r := by
    rw [parseRx_big r (by omega)]
  simp [parseRx, posfx, hbig]

theorem parse_suf :
    parseRx (sufStr.data.length + 1) sufStr.data = some sufToks := by decide

theorem pyReplace_single (a : Char) (t : List Char) :
    ∀ s : List Char,
      pyReplace s [a] t = blkJoin (fun c => if c = a then t else [c]) s := by
  intro s
  induction s with
  | nil => rw [pr_nil]; rfl
  | cons c s ih =>
    by_cases hca : a = c
    · subst hca
      rw [pr_match a s [a] t (by simp) (by simp [isPfx])]
      simp only [blkJoin, List.length_cons, List.length_nil, if_pos rfl]
      rw [← ih]
      simp
    · rw [pr_nomatch c s [a] t (by simp) (by simp [isPfx]; exact hca)]
      simp only [blkJoin]
      rw [if_neg (fun hx => hca hx.symm), ih]
      rfl

theorem notPostfix_build (w rest : List Char)
    (hw : ∀ c ∈ w, isLowerAlnum c = true ∨ c = '*')
    (hrest : notPostfix rest) : notPostfix (blkJoin buildC w ++ rest) := by
  cases w with
  | nil => simpa [blkJoin] using hrest
  | cons c w =>
    have hc := hw c (by simp)
    rcases hc with hc | hc
    · obtain ⟨-, -, -, -, h5, h6, h7, -⟩ := isLowerAlnum_notSpecial c hc
      simp only [blkJoin, buildC]
      rw [if_neg h5]
      refine ⟨by simp [h5], by simp [h6], by simp [h7]⟩
    · subst hc
      simp only [blkJoin, buildC, if_pos rfl]
      refine ⟨by simp, by simp, by simp⟩

theorem parse_build (w : List Char) :
    ∀ rest : List Char,
      (∀ c ∈ w, isLowerAlnum c = true ∨ c = '*') → notPostfix rest →
      parseRx ((blkJoin buildC w ++ rest).length + 1) (blkJoin buildC w ++ rest)
        = (globToks w ++ ·) <$> parseRx (rest.length + 1) rest := by
  induction w with
  | nil =>
    intro rest hw hrest
    simp only [blkJoin, List.nil_append, globToks, List.map_nil]
    cases parseRx (rest.length + 1) rest <;> simp
  | cons c w ih =>
    intro rest hw hrest
    have hcw : ∀ x ∈ w, isLowerAlnum x = true ∨ x = '*' :=
      fun x hx => hw x (List.mem_cons_of_mem _ hx)
    have hnp : notPostfix (blkJoin buildC w ++ rest) :=
      notPostfix_build w rest hcw hrest
    rcases hw c (List.mem_cons_self _ _) with hc | hc
    · obtain ⟨-, -, -, -, hstar, -⟩ := isLowerAlnum_notSpecial c hc
      have hb : blkJoin buildC (c :: w) ++ rest =
          c :: (blkJoin buildC w ++ rest) := by
        simp only [blkJoin, buildC, if_neg hstar]
        simp
      rw [hb]
      have hlen : (c :: (blkJoin buildC w ++ rest)).length + 1 =
          (blkJoin buildC w ++ rest).length + 2 := by simp
      rw [hlen, parse_lit_step c _ hc hnp, ih rest hcw hrest]
      cases parseRx (rest.length + 1) rest <;> simp [globToks, if_neg hstar]
    · subst hc
      have hb : blkJoin buildC ('*' :: w) ++ rest =
          '\\' :: 'w' :: '*' :: (blkJoin buildC w ++ rest) := by
        simp [blkJoin, buildC]
      rw [hb]
      have hlen : ('\\' :: 'w' :: '*' :: (blkJoin buildC w ++ rest)).length + 1 =
          (blkJoin buildC w ++ rest).length + 4 := by simp
      rw [hlen, parse_wstar_step, ih rest hcw hrest]
      cases parseRx (rest.length + 1) rest <;> simp [globToks]

theorem wordPat_data (w : String) :
    (wordPat w).data = blkJoin buildC w.data := by
  show pyReplace w.data ['*'] ['\\', 'w', '*'] = blkJoin buildC w.data
  rw [pyReplace_single '*' ['\\', 'w', '*'] w.data]
  rfl

theorem build_no_caret (l : List Char)
    (hl : ∀ c ∈ l, isLowerAlnum c = true ∨ c = '*') :
    ∀ r, blkJoin buildC l ≠ '^' :: r := by
  intro r h
  cases l with
  | nil => simp [blkJoin] at h
  | cons c l =>
    rcases hl c (List.mem_cons_self _ _) with hc | hc
    · obtain ⟨-, -, -, -, hstar, -, -, hcaret, -⟩ := isLowerAlnum_notSpecial c hc
      simp only [blkJoin, buildC, if_neg hstar, List.cons_append,
        List.singleton_append] at h
      exact hcaret (by injection h)
    · subst hc
      simp [blkJoin, buildC] at h

theorem compileRx_word (w : String)
    (hw : ∀ c ∈ w.data, isLowerAlnum c = true ∨ c = '*') :
    compileRx (wordPat w) = some (false, globToks w.data) := by
  unfold compileRx
  rw [wordPat_data w]
  split
  · rename_i r heq
    exact absurd heq (build_no_caret w.data hw r)
  · have hnp : notPostfix ([] : List Char) := ⟨by simp, by simp, by simp⟩
    have := parse_build w.data [] hw hnp
    simp only [List.append_nil] at this
    rw [this]
    simp [parseRx]

theorem compileRx_anchored (w : String)
    (hw : ∀ c ∈ w.data, isLowerAlnum c = true ∨ c = '*') :
    compileRx ("^" ++ wordPat w ++ sufStr) =
      some (true, globToks w.data ++ sufToks) := by
  have hdata : ("^" ++ wordPat w ++ sufStr).data =
      '^' :: (blkJoin buildC w.data ++ sufStr.data) := by
    show ("^".data ++ (wordPat w).data) ++ sufStr.data = _
    rw [wordPat_data w]
    simp
  unfold compileRx
  rw [hdata]
  have hnp : notPostfix sufStr.data := ⟨by decide, by decide, by decide⟩
  split
  · rename_i r heq
    have hr : blkJoin buildC w.data ++ sufStr.data = r := by injection heq
    subst hr
    rw [parse_build w.data sufStr.data hw hnp, parse_suf]
    rfl
  · rename_i hne
    exact ((hne (blkJoin buildC w.data ++ sufStr.data)) rfl).elim


/-! ## Character fixpoint lemmas -/

theorem lowerAlnum_ne (c d : Char) (hc : isLowerAlnum c = true)
    (hd : isLowerAlnum d = false) : c ≠ d := fun hx => by
  rw [hx] at hc
  rw [hc] at hd
  cases hd

theorem pyLower_fix (c : Char) (hc : isLowerAlnum c = true) :
    pyLowerChar c = c := by
  have h1 : ¬(65 ≤ c.toNat ∧ c.toNat ≤ 90) := by
    simp only [isLowerAlnum, Bool.or_eq_true, decide_eq_true_eq] at hc
    omega
  unfold pyLowerChar
  rw [if_neg h1, if_neg (lowerAlnum_ne c 'Ĉ' hc (by decide)),
      if_neg (lowerAlnum_ne c 'Ĝ' hc (by decide)),
      if_neg (lowerAlnum_ne c 'Ĥ' hc (by decide)),
      if_neg (lowerAlnum_ne c 'Ĵ' hc (by decide)),
      if_neg (lowerAlnum_ne c 'Ŝ' hc (by decide)),
      if_neg (lowerAlnum_ne c 'Ŭ' hc (by decide)),
      if_neg (lowerAlnum_ne c 'Á' hc (by decide)),
      if_neg (lowerAlnum_ne c 'É' hc (by decide)),
      if_neg (lowerAlnum_ne c 'Í' hc (by decide)),
      if_neg (lowerAlnum_ne c 'Ó' hc (by decide)),
      if_neg (lowerAlnum_ne c 'Ú' hc (by decide)),
      if_neg (lowerAlnum_ne c 'Ü' hc (by decide)),
      if_neg (lowerAlnum_ne c 'Ñ' hc (by decide))]

/-! ## Matching literal and glob patterns -/

theorem litToks_cons (c : Char) (w : List Char) :
    litToks (c :: w) = Tok.one (CC.lit c) :: litToks w := rfl

theorem tm_lits_append :
    ∀ (W H : List Char), ciList W H = true → ∀ (ts : List Tok) (r : List Char),
      toksMatch (litToks W ++ ts) (H ++ r) = toksMatch ts r := by
  intro W
  induction W with
  | nil =>
    intro H hci ts r
    cases H with
    | nil => simp [litToks]
    | cons d H => simp [ciList] at hci
  | cons c W ih =>
    intro H hci ts r
    cases H with
    | nil => simp [ciList] at hci
    | cons d H =>
      simp only [ciList, Bool.and_eq_true] at hci
      rw [litToks_cons, List.cons_append, List.cons_append, tm_one_cons]
      rw [show ccMatch (CC.lit c) d = true from hci.1]
      simp only [Bool.true_and]
      exact ih H hci.2 ts r

theorem tm_lits_ciPfx : ∀ (W s : List Char),
    toksMatch (litToks W) s = ciPfx W s := by
  intro W
  induction W with
  | nil => intro s; simp [litToks, tm_nil, ciPfx]
  | cons c W ih =>
    intro s
    cases s with
    | nil =>
      rw [litToks_cons, tm_one_nil]
      simp [ciPfx]
    | cons d s =>
      rw [litToks_cons, tm_one_cons, ih s]
      simp only [ciPfx]
      rfl

theorem anyTail_lits (W : List Char) :
    ∀ s : List Char, anyTailMatch (litToks W) s = ciSub W s := by
  intro s
  induction s with
  | nil =>
    simp only [anyTailMatch, ciSub]
    exact tm_lits_ciPfx W []
  | cons c s ih =>
    simp only [anyTailMatch, ciSub]
    rw [tm_lits_ciPfx, ih]

theorem ciEq_nl (c : Char) (hc : isLowerAlnum c = true) : ciEq c '\n' = false := by
  have hfix : pyLowerChar c = c := pyLower_fix c hc
  have hnl : pyLowerChar '\n' = '\n' := by decide
  have hne : c ≠ '\n' := lowerAlnum_ne c '\n' hc (by decide)
  simp only [ciEq, hfix, hnl]
  simp only [decide_eq_false_iff_not]
  exact hne

theorem ciPfx_snoc_nl :
    ∀ (W : List Char), W ≠ [] → (∀ c ∈ W, isLowerAlnum c = true) →
    ∀ x, ciPfx W (x ++ ['\n']) = ciPfx W x := by
  intro W
  induction W with
  | nil => intro h; exact absurd rfl h
  | cons c W ih =>
    intro _ hall x
    cases x with
    | nil =>
      simp only [List.nil_append, ciPfx]
      rw [ciEq_nl c (hall c (List.mem_cons_self _ _))]
      simp
    | cons d x =>
      simp only [List.cons_append, ciPfx, List.append_eq]
      cases W with
      | nil => simp [ciPfx]
      | cons e W =>
        rw [ih (by simp) (fun y hy => hall y (List.mem_cons_of_mem _ hy)) x]

theorem ciSub_snoc_nl (W : List Char) (hW : W ≠ [])
    (hall : ∀ c ∈ W, isLowerAlnum c = true) :
    ∀ x, ciSub W (x ++ ['\n']) = ciSub W x := by
  intro x
  induction x with
  | nil =>
    simp only [List.nil_append, ciSub]
    cases W with
    | nil => exact absurd rfl hW
    | cons c W =>
      simp only [ciPfx]
      rw [ciEq_nl c (hall c (List.mem_cons_self _ _))]
      simp
  | cons c x ih =>
    simp only [List.cons_append, ciSub, List.append_eq]
    rw [ih, ← List.cons_append, ciPfx_snoc_nl W hW hall (c :: x)]

theorem tm_globToks :
    ∀ (w : List Char), (∀ c ∈ w, isLowerAlnum c = true ∨ c = '*') →
    ∀ s, toksMatch (globToks w) s = globHere w s := by
  intro w
  induction w with
  | nil => intro hw s; simp [globToks, tm_nil, globHere]
  | cons c w ih =>
    intro hw
    have hcw : ∀ x ∈ w, isLowerAlnum x = true ∨ x = '*' :=
      fun x hx => hw x (List.mem_cons_of_mem _ hx)
    by_cases hc : c = '*'
    · subst hc
      intro s
      have hg : globToks ('*' :: w) = Tok.many CC.wordc :: globToks w := by
        simp [globToks]
      rw [hg]
      simp only [globHere, if_pos rfl]
      induction s with
      | nil =>
        rw [tm_many_nil, ih hcw []]
        simp [globStar]
      | cons d s ihs =>
        rw [tm_many_cons, ih hcw (d :: s)]
        simp only [globStar]
        rw [ihs]
        rfl
    · intro s
      have hc' : isLowerAlnum c = true := (hw c (List.mem_cons_self _ _)).resolve_right hc
      have hg : globToks (c :: w) = Tok.one (CC.lit c) :: globToks w := by
        simp [globToks, hc]
      rw [hg]
      cases s with
      | nil =>
        rw [tm_one_nil]
        simp [globHere, hc]
      | cons d s =>
        rw [tm_one_cons, ih hcw s]
        simp [globHere, ccMatch, hc]

theorem anyTail_globToks (w : List Char)
    (hw : ∀ c ∈ w, isLowerAlnum c = true ∨ c = '*') :
    ∀ s, anyTailMatch (globToks w) s = globSearch w s := by
  intro s
  induction s with
  | nil =>
    simp only [anyTailMatch, globSearch]
    exact tm_globToks w hw []
  | cons c s ih =>
    simp only [anyTailMatch, globSearch]
    rw [tm_globToks w hw (c :: s), ih]

/-! ## Identity cases of replace, lower, asciify and compose -/

theorem isPfx_two_mem (a b c : Char) (s : List Char)
    (h : isPfx [a, b] (c :: s) = true) : b ∈ c :: s := by
  cases s with
  | nil => simp [isPfx] at h
  | cons d s =>
    simp only [isPfx, Bool.and_eq_true, decide_eq_true_eq] at h
    simp [h.2.1]

theorem hasOccur_two (a b : Char) :
    ∀ s : List Char, b ∉ s → hasOccur [a, b] s = false := by
  intro s
  induction s with
  | nil => intro h; rfl
  | cons c s ih =>
    intro h
    simp only [hasOccur, Bool.or_eq_false_iff]
    constructor
    · by_contra hx
      simp only [Bool.not_eq_false] at hx
      exact h (isPfx_two_mem a b c s hx)
    · exact ih (fun hx => h (List.mem_cons_of_mem _ hx))

theorem hasOccur_one (a : Char) :
    ∀ s : List Char, a ∉ s → hasOccur [a] s = false := by
  intro s
  induction s with
  | nil => intro h; rfl
  | cons c s ih =>
    intro h
    simp only [hasOccur, Bool.or_eq_false_iff]
    refine ⟨?_, ih (fun hx => h (List.mem_cons_of_mem _ hx))⟩
    have hac : a ≠ c := fun hx => h (by simp [hx])
    simp [isPfx, hac]

theorem noOccur_id (p t : List Char) (hp : p ≠ []) :
    ∀ s, hasOccur p s = false → pyReplace s p t = s := by
  intro s
  induction s with
  | nil => intro _; exact pr_nil p t
  | cons c s ih =>
    intro h
    simp only [hasOccur, Bool.or_eq_false_iff] at h
    rw [pr_nomatch c s p t hp h.1, ih h.2]

theorem pyReplaceS_id (w p t : String) (hp : p.data ≠ [])
    (h : hasOccur p.data w.data = false) : pyReplaceS w p t = w := by
  unfold pyReplaceS
  rw [noOccur_id p.data t.data hp w.data h]

theorem mapFix {f : Char → Char} :
    ∀ l : List Char, (∀ c ∈ l, f c = c) → l.map f = l := by
  intro l
  induction l with
  | nil => intro _; rfl
  | cons c l ih =>
    intro h
    simp only [List.map_cons]
    rw [h c (List.mem_cons_self _ _), ih (fun x hx => h x (List.mem_cons_of_mem _ hx))]

theorem pyLowerS_fix (w : String) (hw : ∀ c ∈ w.data, isLowerAlnum c = true) :
    pyLowerS w = w := by
  unfold pyLowerS
  rw [mapFix w.data (fun c hc => pyLower_fix c (hw c hc))]

theorem alnumAscii_ne (c d : Char) (hc : isAlnumAscii c = true)
    (hd : isAlnumAscii d = false) : c ≠ d := fun hx => by
  rw [hx] at hc
  rw [hc] at hd
  cases hd

theorem transEpo_fix (c : Char) (hc : isAlnumAscii c = true) :
    transChar .esperanto c = c := by
  show (if c = 'ĉ' then 'c' else if c = 'ĝ' then 'g' else if c = 'ĥ' then 'h'
    else if c = 'ĵ' then 'j' else if c = 'ŝ' then 's' else if c = 'ŭ' then 'u'
    else c) = c
  rw [if_neg (alnumAscii_ne c 'ĉ' hc (by decide)),
      if_neg (alnumAscii_ne c 'ĝ' hc (by decide)),
      if_neg (alnumAscii_ne c 'ĥ' hc (by decide)),
      if_neg (alnumAscii_ne c 'ĵ' hc (by decide)),
      if_neg (alnumAscii_ne c 'ŝ' hc (by decide)),
      if_neg (alnumAscii_ne c 'ŭ' hc (by decide))]

theorem lowerAlnum_ascii (c : Char) (hc : isLowerAlnum c = true) :
    isAlnumAscii c = true := by
  simp only [isLowerAlnum, Bool.or_eq_true, decide_eq_true_eq] at hc
  simp only [isAlnumAscii, Bool.or_eq_true, decide_eq_true_eq]
  omega

theorem asciifyEpo_fix (w : String)
    (hw : ∀ c ∈ w.data, isAlnumAscii c = true) :
    asciifyL .esperanto w = w := by
  unfold asciifyL
  rw [mapFix w.data (fun c hc => transEpo_fix c (hw c hc))]

theorem translate_epoCaret (s : String) :
    translate s "c^ g^ h^ j^ s^ u^" "ĉ ĝ ĥ ĵ ŝ ŭ" =
      pyReplaceS (pyReplaceS (pyReplaceS (pyReplaceS (pyReplaceS (pyReplaceS s
        "c^" "ĉ") "g^" "ĝ") "h^" "ĥ") "j^" "ĵ") "s^" "ŝ") "u^" "ŭ" := by
  have hz : (pySplit "c^ g^ h^ j^ s^ u^").zip (pySplit "ĉ ĝ ĥ ĵ ŝ ŭ") =
      [("c^", "ĉ"), ("g^", "ĝ"), ("h^", "ĥ"), ("j^", "ĵ"), ("s^", "ŝ"),
       ("u^", "ŭ")] := by decide
  simp [translate, hz]

theorem translate_epoX (s : String) :
    translate s "cx gx hx jx sx ux" "ĉ ĝ ĥ ĵ ŝ ŭ" =
      pyReplaceS (pyReplaceS (pyReplaceS (pyReplaceS (pyReplaceS (pyReplaceS s
        "cx" "ĉ") "gx" "ĝ") "hx" "ĥ") "jx" "ĵ") "sx" "ŝ") "ux" "ŭ" := by
  have hz : (pySplit "cx gx hx jx sx ux").zip (pySplit "ĉ ĝ ĥ ĵ ŝ ŭ") =
      [("cx", "ĉ"), ("gx", "ĝ"), ("hx", "ĥ"), ("jx", "ĵ"), ("sx", "ŝ"),
       ("ux", "ŭ")] := by decide
  simp [translate, hz]

theorem composeEpo_fix (w : String)
    (hw : ∀ c ∈ w.data, isLowerAlnum c = true)
    (hd : noDigraphs w.data = true) : composeL .esperanto w = w := by
  have hcaret : '^' ∉ w.data := fun hx =>
    absurd (hw '^' hx) (by decide)
  have hx : 'x' ∈ w.data → True := fun _ => trivial
  simp only [noDigraphs, Bool.and_eq_true, Bool.not_eq_true'] at hd
  obtain ⟨⟨⟨⟨⟨hc1, hc2⟩, hc3⟩, hc4⟩, hc5⟩, hc6⟩ := hd
  show (translate (translate w "c^ g^ h^ j^ s^ u^" "ĉ ĝ ĥ ĵ ŝ ŭ")
      "cx gx hx jx sx ux" "ĉ ĝ ĥ ĵ ŝ ŭ") = w
  rw [translate_epoCaret, translate_epoX]
  rw [pyReplaceS_id w _ _ (by decide) (hasOccur_two 'c' '^' w.data hcaret)]
  rw [pyReplaceS_id w _ _ (by decide) (hasOccur_two 'g' '^' w.data hcaret)]
  rw [pyReplaceS_id w _ _ (by decide) (hasOccur_two 'h' '^' w.data hcaret)]
  rw [pyReplaceS_id w _ _ (by decide) (hasOccur_two 'j' '^' w.data hcaret)]
  rw [pyReplaceS_id w _ _ (by decide) (hasOccur_two 's' '^' w.data hcaret)]
  rw [pyReplaceS_id w _ _ (by decide) (hasOccur_two 'u' '^' w.data hcaret)]
  rw [pyReplaceS_id w _ _ (by decide) hc1, pyReplaceS_id w _ _ (by decide) hc2,
      pyReplaceS_id w _ _ (by decide) hc3, pyReplaceS_id w _ _ (by decide) hc4,
      pyReplaceS_id w _ _ (by decide) hc5, pyReplaceS_id w _ _ (by decide) hc6]

/-! ## Scanning lemmas -/

theorem idxSlash_none_iff : ∀ s : List Char, idxSlash s = none ↔ '/' ∉ s := by
  intro s
  induction s with
  | nil => simp [idxSlash]
  | cons c s ih =>
    simp only [idxSlash]
    by_cases hc : c = '/'
    · subst hc
      simp
    · rw [if_neg hc]
      simp only [Option.map_eq_none', List.mem_cons]
      rw [ih]
      constructor
      · intro h hx
        rcases hx with hx | hx
        · exact hc hx.symm
        · exact h hx
      · intro h hx
        exact h (Or.inr hx)

theorem compTextO_none (o : LOpts) (line : String) (hrev : o.reverse = false)
    (h : hasSlash line = false) : compTextO o line = none := by
  unfold compTextO
  rw [hrev]
  simp only [Bool.false_eq_true, if_false]
  have hmem : '/' ∉ (line ++ "\n").data := by
    intro hx
    simp only [hasSlash, decide_eq_false_iff_not] at h
    rw [show (line ++ "\n").data = line.data ++ ['\n'] from rfl] at hx
    rcases List.mem_append.mp hx with hx | hx
    · exact h hx
    · simp at hx
  rw [(idxSlash_none_iff _).mpr hmem]
  rfl

theorem compTextO_some_of_slash (o : LOpts) (line : String)
    (h : hasSlash line = true) : (compTextO o line).isSome = true := by
  unfold compTextO
  by_cases hrev : o.reverse
  · simp [hrev]
  · simp only [hrev, Bool.false_eq_true, if_false]
    have hmem : '/' ∈ (line ++ "\n").data := by
      rw [show (line ++ "\n").data = line.data ++ ['\n'] from rfl]
      refine List.mem_append.mpr (Or.inl ?_)
      simpa only [hasSlash, decide_eq_true_eq] using h
    cases hidx : idxSlash (line ++ "\n").data with
    | none => exact absurd hmem ((idxSlash_none_iff _).mp hidx)
    | some i => simp

theorem scan_err (rxs : List (Bool × List Tok)) (o : LOpts)
    (hrev : o.reverse = false) :
    ∀ (lines : List String) (f r : Nat), (∃ l ∈ lines, hasSlash l = false) →
      scan rxs o lines f r = .error .valueError := by
  intro lines
  induction lines with
  | nil => intro f r h; simp at h
  | cons line rest ih =>
    intro f r h
    by_cases hline : hasSlash line = true
    · have hbad : ∃ l ∈ rest, hasSlash l = false := by
        rcases h with ⟨l, hl, hfl⟩
        rcases List.mem_cons.mp hl with rfl | hl
        · rw [hline] at hfl; cases hfl
        · exact ⟨l, hl, hfl⟩
      obtain ⟨t, ht⟩ := Option.isSome_iff_exists.mp
        (compTextO_some_of_slash o line hline)
      have hscan : ∀ (f r : Nat), scan rxs o rest f r = .error .valueError :=
        fun f r => ih f r hbad
      simp only [scan, ht, hscan]
      split_ifs <;> rfl
    · have hline' : hasSlash line = false := by
        cases hq : hasSlash line
        · rfl
        · exact absurd hq hline
      simp only [scan, compTextO_none o line hrev hline']

theorem scan_mem (rxs : List (Bool × List Tok)) (o : LOpts) :
    ∀ (lines : List String) (f r : Nat),
      (∀ l ∈ lines, (compTextO o l).isSome = true) →
      ∃ f' r' out, scan rxs o lines f r = .ok (f', r', out) ∧
        ∀ l ∈ lines, lineHit rxs o l = true → pyRstrip l ∈ out := by
  intro lines
  induction lines with
  | nil =>
    intro f r _
    exact ⟨f, r, [], rfl, by simp⟩
  | cons line rest ih =>
    intro f r hok
    obtain ⟨t, ht⟩ := Option.isSome_iff_exists.mp
      (hok line (List.mem_cons_self _ _))
    have hrest : ∀ l ∈ rest, (compTextO o l).isSome = true :=
      fun l hl => hok l (List.mem_cons_of_mem _ hl)
    have hhit : lineHit rxs o line =
        decide (0 < (rxs.filter (fun rx => rxSearchB rx t)).length) := by
      unfold lineHit
      rw [ht]
      rcases hf : rxs.filter (fun rx => rxSearchB rx t) with _ | ⟨a, as⟩
      · have : ¬ rxs.any (fun rx => rxSearchB rx t) = true := by
          intro hx
          rcases List.any_eq_true.mp hx with ⟨x, hx1, hx2⟩
          have : x ∈ rxs.filter (fun rx => rxSearchB rx t) :=
            List.mem_filter.mpr ⟨hx1, hx2⟩
          rw [hf] at this
          simp at this
        simp [this, hf]
      · have hx : a ∈ rxs.filter (fun rx => rxSearchB rx t) := by rw [hf]; simp
        have := List.mem_filter.mp hx
        have hany : rxs.any (fun rx => rxSearchB rx t) = true :=
          List.any_eq_true.mpr ⟨a, this.1, this.2⟩
        simp [hany, hf]
    simp only [scan, ht]
    split_ifs with hk hd
    · obtain ⟨f', r', out, hsc, hm⟩ :=
        ih (f + (rxs.filter (fun rx => rxSearchB rx t)).length) (r + 1) hrest
      refine ⟨f', r', [""] ++ pyRstrip line :: out, ?_, ?_⟩
      · rw [hsc]
      · intro l hl hhl
        rcases List.mem_cons.mp hl with rfl | hl
        · simp
        · simp [hm l hl hhl]
    · obtain ⟨f', r', out, hsc, hm⟩ :=
        ih (f + (rxs.filter (fun rx => rxSearchB rx t)).length) (r + 1) hrest
      refine ⟨f', r', [] ++ pyRstrip line :: out, ?_, ?_⟩
      · rw [hsc]
      · intro l hl hhl
        rcases List.mem_cons.mp hl with rfl | hl
        · simp
        · simp [hm l hl hhl]
    · obtain ⟨f', r', out, hsc, hm⟩ :=
        ih (f + (rxs.filter (fun rx => rxSearchB rx t)).length) r hrest
      refine ⟨f', r', out, by rw [hsc], ?_⟩
      intro l hl hhl
      rcases List.mem_cons.mp hl with rfl | hl
      · rw [hhit] at hhl
        simp only [decide_eq_true_eq] at hhl
        exact absurd hhl hk
      · exact hm l hl hhl

theorem lookup_eval (words : List String) (lang : Lang) (dict : List String)
    (o : LOpts) (hnorm : o.norm = false) (rxs : List (Bool × List Tok))
    (hrx : (buildPats (words.map (fun w => composeL lang (pyLowerS w))) o).mapM
      compileRx = some rxs) :
    lookup words lang dict o =
      match scan rxs o dict 0 0 with
      | .error e => .error e
      | .ok (found, _, out) =>
        if found = 0 && o.verbose then .error .nameError else .ok out := by
  unfold lookup
  rw [hnorm]
  simp only [Bool.false_eq_true, if_false, pure_bind]
  rw [hrx]
  rfl

/-! ## Evaluating the pipeline on plain lowercase words -/

theorem epoWord_fix (W : String) (hW : ∀ c ∈ W.data, isLowerAlnum c = true)
    (hd : noDigraphs W.data = true) :
    composeL .esperanto (pyLowerS W) = W := by
  rw [pyLowerS_fix W hW, composeEpo_fix W hW hd]

theorem star_not_mem (W : String)
    (hW : ∀ c ∈ W.data, isLowerAlnum c = true) : '*' ∉ W.data :=
  fun hx => absurd (hW _ hx) (by decide)

theorem wordPat_fix (W : String)
    (hW : ∀ c ∈ W.data, isLowerAlnum c = true) : wordPat W = W := by
  unfold wordPat
  exact pyReplaceS_id W "*" "\\w*" (by decide)
    (hasOccur_one '*' W.data (star_not_mem W hW))

theorem globToks_eq_lit : ∀ w : List Char, '*' ∉ w → globToks w = litToks w := by
  intro w
  induction w with
  | nil => intro _; rfl
  | cons c w ih =>
    intro h
    have hc : c ≠ '*' := fun hx => h (by simp [hx])
    simp only [globToks, litToks, List.map_cons]
    rw [if_neg hc]
    have := ih (fun hx => h (List.mem_cons_of_mem _ hx))
    simp only [globToks, litToks] at this
    rw [this]

theorem transAsciiEpo_fix (c : Char) (h : c.toNat < 128) :
    transChar .esperanto c = c := by
  show (if c = 'ĉ' then 'c' else if c = 'ĝ' then 'g' else if c = 'ĥ' then 'h'
    else if c = 'ĵ' then 'j' else if c = 'ŝ' then 's' else if c = 'ŭ' then 'u'
    else c) = c
  rw [if_neg (fun hx => by rw [hx] at h; exact absurd h (by decide)),
      if_neg (fun hx => by rw [hx] at h; exact absurd h (by decide)),
      if_neg (fun hx => by rw [hx] at h; exact absurd h (by decide)),
      if_neg (fun hx => by rw [hx] at h; exact absurd h (by decide)),
      if_neg (fun hx => by rw [hx] at h; exact absurd h (by decide)),
      if_neg (fun hx => by rw [hx] at h; exact absurd h (by decide))]

theorem idxSlash_at :
    ∀ (P : List Char), '/' ∉ P → ∀ rest, idxSlash (P ++ '/' :: rest) = some P.length := by
  intro P
  induction P with
  | nil => intro _ rest; simp [idxSlash]
  | cons c P ih =>
    intro h rest
    have hc : c ≠ '/' := fun hx => h (by simp [hx])
    simp only [List.cons_append, idxSlash, if_neg hc, List.append_eq]
    rw [ih (fun hx => h (List.mem_cons_of_mem _ hx)) rest]
    rfl

theorem take_append_len :
    ∀ (a b : List Char) (k : Nat), (a ++ b).take (a.length + k) = a ++ b.take k := by
  intro a
  induction a with
  | nil => intro b k; simp
  | cons c a ih =>
    intro b k
    simp only [List.cons_append, List.length_cons, List.take]
    rw [show a.length + 1 + k = (a.length + k) + 1 from by omega]
    simp only [List.take]
    rw [ih b k]

theorem asciifyEpo_ascii_fix (l : List Char) (hl : ∀ c ∈ l, c.toNat < 128) :
    l.map (transChar .esperanto) = l :=
  mapFix l (fun c hc => transAsciiEpo_fix c (hl c hc))

theorem alnumAscii_lt128 (c : Char) (h : isAlnumAscii c = true) : c.toNat < 128 := by
  simp only [isAlnumAscii, Bool.or_eq_true, decide_eq_true_eq] at h
  omega

theorem compTextO_line (o : LOpts) (H D : String) (hrev : o.reverse = false)
    (hH : ∀ c ∈ H.data, isAlnumAscii c = true)
    (hasc : o.asc = asciifyL .esperanto) :
    compTextO o (H ++ " /" ++ D) = some ⟨H.data ++ [' ', '/']⟩ := by
  unfold compTextO
  rw [hrev]
  simp only [Bool.false_eq_true, if_false]
  have hslash : '/' ∉ H.data ++ [' '] := by
    intro hx
    rcases List.mem_append.mp hx with hx | hx
    · exact absurd (hH _ hx) (by decide)
    · simp at hx
  have hdata : ((H ++ " /" ++ D) ++ "\n").data =
      (H.data ++ [' ']) ++ '/' :: (D.data ++ ['\n']) := by
    show ((H.data ++ [' ', '/']) ++ D.data) ++ ['\n'] = _
    simp
  rw [hdata, idxSlash_at (H.data ++ [' ']) hslash (D.data ++ ['\n'])]
  simp only [Option.map_some']
  have hlen : (H.data ++ [' ']).length + 1 = (H.data ++ [' ']).length + 1 := rfl
  rw [take_append_len (H.data ++ [' ']) ('/' :: (D.data ++ ['\n'])) 1]
  have htake : ('/' :: (D.data ++ ['\n'])).take 1 = ['/'] := by simp
  rw [htake, hasc]
  have hfix : ((H.data ++ [' ']) ++ ['/']).map (transChar .esperanto) =
      (H.data ++ [' ']) ++ ['/'] := by
    apply asciifyEpo_ascii_fix
    intro c hc
    rcases List.mem_append.mp hc with hc | hc
    · rcases List.mem_append.mp hc with hc | hc
      · exact alnumAscii_lt128 c (hH c hc)
      · simp at hc; subst hc; decide
    · simp at hc; subst hc; decide
  show some (asciifyL .esperanto ⟨(H.data ++ [' ']) ++ ['/']⟩) = _
  unfold asciifyL
  rw [show (⟨(H.data ++ [' ']) ++ ['/']⟩ : String).data = (H.data ++ [' ']) ++ ['/'] from rfl]
  rw [hfix]
  congr 1
  simp

/-! ## Claim C3 -/

theorem epoRxs_anchored (W : String)
    (hW : ∀ c ∈ W.data, isLowerAlnum c = true)
    (hdig : noDigraphs W.data = true) :
    (buildPats ([W].map (fun w => composeL .esperanto (pyLowerS w)))
      epoStd).mapM compileRx = some [(true, litToks W.data ++ sufToks)] := by
  have hWs : ∀ c ∈ W.data, isAlnumAscii c = true :=
    fun c hc => lowerAlnum_ascii c (hW c hc)
  have hmap : [W].map (fun w => composeL .esperanto (pyLowerS w)) = [W] := by
    simp [epoWord_fix W hW hdig]
  have hpats : buildPats [W] epoStd = ["^" ++ W ++ sufStr] := by
    show ["^" ++ pyReplaceS (asciifyL .esperanto W) "*" "\\w*" ++ sufStr] = _
    rw [asciifyEpo_fix W hWs]
    rw [show pyReplaceS W "*" "\\w*" = wordPat W from rfl, wordPat_fix W hW]
  have hcomp : compileRx ("^" ++ W ++ sufStr) =
      some (true, litToks W.data ++ sufToks) := by
    have h := compileRx_anchored W (fun c hc => Or.inl (hW c hc))
    rw [wordPat_fix W hW] at h
    rw [h, globToks_eq_lit W.data (star_not_mem W hW)]
  rw [hmap, hpats]
  simp [List.mapM.loop, hcomp]

/-- Claim C3, corrected.  The original claim fails for words that `compose`
rewrites (counterexample below); for a query word of plain lowercase ASCII
letters and digits free of the escape digraphs `cx gx hx jx sx ux`, a
dictionary line whose headword (ASCII alphanumeric, before the " /"
separator) equals the word case-insensitively is included in the result of
a non-reverse lookup, for any dictionary of separator-carrying lines that
contains the line. -/
theorem c3_headword_included (W H D : String) (dict : List String)
    (hW : ∀ c ∈ W.data, isLowerAlnum c = true)
    (hdig : noDigraphs W.data = true)
    (hci : ciList W.data H.data = true)
    (hHa : ∀ c ∈ H.data, isAlnumAscii c = true)
    (hdict : ∀ l ∈ dict, hasSlash l = true)
    (hmem : (H ++ " /" ++ D) ∈ dict) :
    ∃ out, lookup [W] .esperanto dict epoStd = .ok out ∧
      pyRstrip (H ++ " /" ++ D) ∈ out := by
  rw [lookup_eval [W] .esperanto dict epoStd rfl _ (epoRxs_anchored W hW hdig)]
  obtain ⟨f', r', out, hsc, hm⟩ :=
    scan_mem [(true, litToks W.data ++ sufToks)] epoStd dict 0 0
      (fun l hl => compTextO_some_of_slash epoStd l (hdict l hl))
  rw [hsc]
  have hLine : lineHit [(true, litToks W.data ++ sufToks)] epoStd
      (H ++ " /" ++ D) = true := by
    unfold lineHit
    rw [compTextO_line epoStd H D rfl hHa rfl]
    simp only [List.any_cons, List.any_nil, Bool.or_false]
    show toksMatch (litToks W.data ++ sufToks)
      ((⟨H.data ++ [' ', '/']⟩ : String)).data = true
    rw [show ((⟨H.data ++ [' ', '/']⟩ : String)).data = H.data ++ [' ', '/']
      from rfl]
    rw [tm_lits_append W.data H.data hci sufToks [' ', '/']]
    decide
  exact ⟨out, by simp [epoStd], hm _ hmem hLine⟩

/-- Claim C3 counterexample: the dictionary line "cxu /x" has headword
"cxu", case-insensitively equal to the query word "cxu", yet the lookup
returns no lines: `compose` has rewritten the query to "ĉu" and `asciify`
to "cu", which no longer matches the headword text. -/
theorem c3_counterexample :
    ciList "cxu".data "cxu".data = true ∧
    lookup ["cxu"] .esperanto ["cxu /x"] epoStd = .ok [] := ⟨by decide, by decide⟩

/-- Witness for C3 at a concrete input, headword in mixed case. -/
theorem c3_witness :
    ∃ out, lookup ["hundo"] .esperanto
      ["kato /cat", "Hundo" ++ " /" ++ "dog"] epoStd = .ok out ∧
      pyRstrip ("Hundo" ++ " /" ++ "dog") ∈ out :=
  c3_headword_included "hundo" "Hundo" "dog" ["kato /cat", "Hundo" ++ " /" ++ "dog"]
    (by decide) (by decide) (by decide) (by decide) (by decide)
    (by decide)

/-! ## Claim C4 -/

theorem epoRxs_reverse (W : String)
    (hW : ∀ c ∈ W.data, isLowerAlnum c = true)
    (hdig : noDigraphs W.data = true) :
    (buildPats ([W].map (fun w => composeL .esperanto (pyLowerS w)))
      epoRev).mapM compileRx = some [(false, litToks W.data)] := by
  have hWs : ∀ c ∈ W.data, isAlnumAscii c = true :=
    fun c hc => lowerAlnum_ascii c (hW c hc)
  have hmap : [W].map (fun w => composeL .esperanto (pyLowerS w)) = [W] := by
    simp [epoWord_fix W hW hdig]
  have hpats : buildPats [W] epoRev = [W] := by
    show [pyReplaceS (asciifyL .esperanto W) "*" "\\w*"] = _
    rw [asciifyEpo_fix W hWs]
    rw [show pyReplaceS W "*" "\\w*" = wordPat W from rfl, wordPat_fix W hW]
  have hcomp : compileRx W = some (false, litToks W.data) := by
    have h := compileRx_word W (fun c hc => Or.inl (hW c hc))
    rw [wordPat_fix W hW] at h
    rw [h, globToks_eq_lit W.data (star_not_mem W hW)]
  rw [hmap, hpats]
  simp [List.mapM.loop, hcomp]

/-- Claim C4, corrected.  The original claim fails for words that `compose`
rewrites (counterexample below); for a nonempty query word of plain
lowercase ASCII letters and digits free of the escape digraphs, a reverse
lookup over a dictionary consisting of the line L emits L (stripped) if
and only if the asciified text of L contains the word case-insensitively
as a substring, regardless of field position. -/
theorem c4_reverse_iff (W L : String) (hne : W.data ≠ [])
    (hW : ∀ c ∈ W.data, isLowerAlnum c = true)
    (hdig : noDigraphs W.data = true) :
    lookup [W] .esperanto [L] epoRev =
      .ok (if ciSub W.data (asciifyL .esperanto L).data = true
           then [pyRstrip L] else []) := by
  rw [lookup_eval [W] .esperanto [L] epoRev rfl _ (epoRxs_reverse W hW hdig)]
  have ht : compTextO epoRev L = some (asciifyL .esperanto (L ++ "\n")) := by
    unfold compTextO
    rfl
  have hdata : (asciifyL .esperanto (L ++ "\n")).data =
      (asciifyL .esperanto L).data ++ ['\n'] := by
    show (L.data ++ ['\n']).map (transChar .esperanto) =
      L.data.map (transChar .esperanto) ++ ['\n']
    rw [List.map_append]
    rfl
  have hs : rxSearchB (false, litToks W.data)
      (asciifyL .esperanto (L ++ "\n")) =
      ciSub W.data (asciifyL .esperanto L).data := by
    show anyTailMatch (litToks W.data) (asciifyL .esperanto (L ++ "\n")).data = _
    rw [anyTail_lits, hdata, ciSub_snoc_nl W.data hne hW]
  simp only [scan, ht]
  cases hcs : ciSub W.data (asciifyL .esperanto L).data with
  | false =>
    rw [hcs] at hs
    simp [List.filter, hs, scan, epoRev]
  | true =>
    rw [hcs] at hs
    simp [List.filter, hs, scan, epoRev]

/-- Claim C4 counterexample: the asciified text of the line "cxu /x"
contains the query word "cxu" case-insensitively, yet the reverse lookup
emits nothing: the query is composed to "ĉu" and asciified to "cu" before
matching. -/
theorem c4_counterexample :
    ciSub "cxu".data (asciifyL .esperanto "cxu /x").data = true ∧
    lookup ["cxu"] .esperanto ["cxu /x"] epoRev = .ok [] := ⟨by decide, by decide⟩

/-- Witness for C4 at a concrete input, positive and stated via the
theorem. -/
theorem c4_witness :
    lookup ["dog"] .esperanto ["hundo /a dog"] epoRev =
      .ok (if ciSub "dog".data (asciifyL .esperanto "hundo /a dog").data = true
           then [pyRstrip "hundo /a dog"] else []) :=
  c4_reverse_iff "dog" "hundo /a dog" (by decide) (by decide) (by decide)

/-! ## Claims C1 and C2 -/

/-- Claim C1, corrected.  The original claim (a separator-less line is
silently skipped) is refuted by the counterexample below: when reverse
mode is not set, `lookup` evaluates `line.index("/")` on each line, and on
a line without "/" this raises `ValueError`, aborting the lookup.  The
amended claim: for every query whose patterns fall in the modelled
fragment and every dictionary containing a line with no "/" separator,
non-reverse lookup fails with the `ValueError`. -/
theorem c1_malformed_fatal (words : List String) (lang : Lang)
    (dict : List String) (o : LOpts) (hrev : o.reverse = false)
    (hnorm : o.norm = false) (hrx : patsOk words lang o = true)
    (hbad : ∃ l ∈ dict, hasSlash l = false) :
    lookup words lang dict o = .error .valueError := by
  obtain ⟨rxs, hrxs⟩ := Option.isSome_iff_exists.mp hrx
  rw [lookup_eval words lang dict o hnorm rxs hrxs]
  rw [scan_err rxs o hrev dict 0 0 hbad]

/-- Claim C1 counterexample: a dictionary with a malformed first line and
a matching second line; the claim says lookup completes normally with the
malformed line skipped, but it aborts with the `ValueError`. -/
theorem c1_counterexample :
    lookup ["hundo"] .esperanto ["hundo dog", "hundo /dog"] epoStd =
      .error .valueError := by decide

/-- Witness for the amended C1 at a concrete input. -/
theorem c1_witness :
    lookup ["ia"] .esperanto ["kato cat"] epoStd = .error .valueError :=
  c1_malformed_fatal ["ia"] .esperanto ["kato cat"] epoStd rfl rfl
    (by decide) ⟨"kato cat", by decide, by decide⟩

/-- Claim C2 (code bug).  With `verbose` set and a query word matching no
line, the source (line 226) evaluates an f-string referring to `word`,
which is undefined: in Python 3 the comprehension variables of lines
197-199 do not leak into the function scope.  The lookup therefore raises
`NameError` instead of emitting the single diagnostic line the claim (and
the option's own help text) describes. -/
theorem c2_verbose_nameerror :
    lookup ["hundo"] .esperanto ["kato /cat"] epoVerbose =
      .error .nameError := by decide

/-! ## Claim C7 -/

theorem transChar_idem (lang : Lang) (c : Char) :
    transChar lang (transChar lang c) = transChar lang c := by
  cases lang
  case bahasa => rfl
  case english => rfl
  case lojban => rfl
  case esperanto =>
    by_cases h1 : c = 'ĉ'
    · subst h1; decide
    by_cases h2 : c = 'ĝ'
    · subst h2; decide
    by_cases h3 : c = 'ĥ'
    · subst h3; decide
    by_cases h4 : c = 'ĵ'
    · subst h4; decide
    by_cases h5 : c = 'ŝ'
    · subst h5; decide
    by_cases h6 : c = 'ŭ'
    · subst h6; decide
    have hfix : transChar .esperanto c = c := by
      show (if c = 'ĉ' then 'c' else if c = 'ĝ' then 'g' else if c = 'ĥ' then 'h'
        else if c = 'ĵ' then 'j' else if c = 'ŝ' then 's' else if c = 'ŭ' then 'u'
        else c) = c
      rw [if_neg h1, if_neg h2, if_neg h3, if_neg h4, if_neg h5, if_neg h6]
    rw [hfix, hfix]
  case espanol =>
    by_cases h1 : c = 'á'
    · subst h1; decide
    by_cases h2 : c = 'é'
    · subst h2; decide
    by_cases h3 : c = 'í'
    · subst h3; decide
    by_cases h4 : c = 'ó'
    · subst h4; decide
    by_cases h5 : c = 'ú'
    · subst h5; decide
    by_cases h6 : c = 'ü'
    · subst h6; decide
    by_cases h7 : c = 'ñ'
    · subst h7; decide
    have hfix : transChar .espanol c = c := by
      show (if c = 'á' then 'a' else if c = 'é' then 'e' else if c = 'í' then 'i'
        else if c = 'ó' then 'o' else if c = 'ú' then 'u' else if c = 'ü' then 'u'
        else if c = 'ñ' then 'n' else c) = c
      rw [if_neg h1, if_neg h2, if_neg h3, if_neg h4, if_neg h5, if_neg h6,
          if_neg h7]
    rw [hfix, hfix]

theorem map_idem_self {f : Char → Char} (hf : ∀ c, f (f c) = f c) :
    ∀ l : List Char, (l.map f).map f = l.map f := by
  intro l
  induction l with
  | nil => rfl
  | cons c l ih => simp only [List.map_cons, ih, hf]

/-- Claim C7: `asciify` is idempotent for every language variant and every
string. -/
theorem c7_asciify_idempotent (lang : Lang) (s : String) :
    asciifyL lang (asciifyL lang s) = asciifyL lang s := by
  unfold asciifyL
  rw [show (⟨s.data.map (transChar lang)⟩ : String).data
      = s.data.map (transChar lang) from rfl]
  rw [map_idem_self (transChar_idem lang) s.data]

/-! ## Claim C10 -/

/-- Claim C10: `Esperanto.normalize` evaluates `s[0]`, which raises
`IndexError` on the empty string (modelled as `none`); on every nonempty
word it returns a string. -/
theorem c10_normalize_total :
    normalizeL .esperanto "" = none ∧
    ∀ s : String, s ≠ "" → ∃ t, normalizeL .esperanto s = some t := by
  refine ⟨rfl, ?_⟩
  intro s hs
  cases s with
  | mk l =>
    cases l with
    | nil => exact absurd rfl hs
    | cons c l =>
      show ∃ t, esperantoNormalize ⟨c :: l⟩ = some t
      obtain ⟨d, hd⟩ := Option.isSome_iff_exists.mp
        (show ((c :: l).getLast?).isSome = true from
          List.getLast?_isSome.mpr (by simp))
      unfold esperantoNormalize
      rw [show (⟨c :: l⟩ : String).data = c :: l from rfl]
      rw [show (c :: l).head? = some c from rfl, hd]
      dsimp only
      split_ifs <;> exact ⟨_, rfl⟩

/-- Witness for C10 at a concrete nonempty word. -/
theorem c10_witness :
    normalizeL .esperanto "" = none ∧ ("amas" : String) ≠ "" ∧
    ∃ t, normalizeL .esperanto "amas" = some t :=
  ⟨c10_normalize_total.1, by decide,
    c10_normalize_total.2 "amas" (by decide)⟩

/-! ## Claim C5 -/

/-- Claim C5, corrected.  In the pattern built from a query word, `*` is
translated to "match zero or more word characters" and letters and digits
are matched literally, case-insensitively; but a regex metacharacter such
as `.` is NOT matched literally (counterexample below), so the claim is
restricted to words over letters, digits and `*`.  For those, searching
the compiled pattern agrees exactly with the glob semantics transcribed
from the spec (`globSearch`). -/
theorem c5_wildcard_glob (w s : String)
    (hw : ∀ c ∈ w.data, isLowerAlnum c = true ∨ c = '*') :
    rxSearchStr (wordPat w) s = some (globSearch w.data s.data) := by
  unfold rxSearchStr
  rw [compileRx_word w hw]
  simp only [Option.map_some']
  congr 1
  show anyTailMatch (globToks w.data) s.data = _
  exact anyTail_globToks w.data hw s.data

/-- Claim C5 counterexample: in the word "a.c" the character '.' is not
matched literally: the compiled pattern matches the text "abc" (the dot
matches 'b'), although "a.c" does not occur in "abc" literally. -/
theorem c5_counterexample :
    rxSearchStr (wordPat "a.c") "abc" = some true ∧
    ciSub "a.c".data "abc".data = false := ⟨by decide, by decide⟩

/-- Witness for C5 at a concrete wildcard word. -/
theorem c5_witness :
    rxSearchStr (wordPat "hu*o") "hundo" =
      some (globSearch "hu*o".data "hundo".data) :=
  c5_wildcard_glob "hu*o" "hundo" (by decide)

/-! ## Claim C9 -/

theorem scan_sep (rxs : List (Bool × List Tok)) (o : LOpts)
    (hd : o.doublespace = true) :
    ∀ (lines : List String) (f r : Nat),
      (∀ l ∈ lines, (compTextO o l).isSome = true) →
      ∃ f' r', scan rxs o lines f r = .ok (f', r',
        (if r ≠ 0 ∧ (lines.filter (lineHit rxs o)).map pyRstrip ≠ []
         then [""] else []) ++
          sepBlank ((lines.filter (lineHit rxs o)).map pyRstrip)) := by
  intro lines
  induction lines with
  | nil =>
    intro f r _
    exact ⟨f, r, by simp [scan, sepBlank]⟩
  | cons line rest ih =>
    intro f r hok
    obtain ⟨t, ht⟩ := Option.isSome_iff_exists.mp
      (hok line (List.mem_cons_self _ _))
    have hrest : ∀ l ∈ rest, (compTextO o l).isSome = true :=
      fun l hl => hok l (List.mem_cons_of_mem _ hl)
    have hhit : lineHit rxs o line =
        decide (0 < (rxs.filter (fun rx => rxSearchB rx t)).length) := by
      unfold lineHit
      rw [ht]
      rcases hf : rxs.filter (fun rx => rxSearchB rx t) with _ | ⟨a, as⟩
      · have : ¬ rxs.any (fun rx => rxSearchB rx t) = true := by
          intro hx
          rcases List.any_eq_true.mp hx with ⟨x, hx1, hx2⟩
          have : x ∈ rxs.filter (fun rx => rxSearchB rx t) :=
            List.mem_filter.mpr ⟨hx1, hx2⟩
          rw [hf] at this
          simp at this
        simp [this, hf]
      · have hx : a ∈ rxs.filter (fun rx => rxSearchB rx t) := by rw [hf]; simp
        have := List.mem_filter.mp hx
        have hany : rxs.any (fun rx => rxSearchB rx t) = true :=
          List.any_eq_true.mpr ⟨a, this.1, this.2⟩
        simp [hany, hf]
    simp only [scan, ht]
    by_cases hk : 0 < (rxs.filter (fun rx => rxSearchB rx t)).length
    · have hhl : lineHit rxs o line = true := by
        rw [hhit]; simpa using hk
      obtain ⟨f', r', hsc⟩ :=
        ih (f + (rxs.filter (fun rx => rxSearchB rx t)).length) (r + 1) hrest
      rw [if_pos hk, hsc]
      refine ⟨f', r', ?_⟩
      have hfilter : (line :: rest).filter (lineHit rxs o) =
          line :: rest.filter (lineHit rxs o) := by
        simp [List.filter, hhl]
      rw [hfilter, List.map_cons, hd]
      have hkey : pyRstrip line ::
          ((if r + 1 ≠ 0 ∧ (rest.filter (lineHit rxs o)).map pyRstrip ≠ []
            then [""] else []) ++
            sepBlank ((rest.filter (lineHit rxs o)).map pyRstrip)) =
          sepBlank (pyRstrip line ::
            (rest.filter (lineHit rxs o)).map pyRstrip) := by
        rcases (rest.filter (lineHit rxs o)).map pyRstrip with _ | ⟨m, ms⟩
        · simp [sepBlank]
        · simp only [sepBlank]
          have : (r + 1 ≠ 0 ∧ (m :: ms) ≠ []) := ⟨by omega, by simp⟩
          rw [if_pos this]
          rfl
      rw [show ∀ (a b : List String),
            Except.ok (ε := LErr) (f', r', a) = Except.ok (f', r', b) ↔ a = b
          from fun a b => by
            constructor
            · intro h; injection h with h; injection h with h1 h2; injection h2
            · intro h; rw [h]]
      rw [hkey]
      by_cases hr : r = 0
      · simp [hr]
      · have : pyRstrip line :: (rest.filter (lineHit rxs o)).map pyRstrip ≠ [] := by
          simp
        simp [hr, this]
    · have hhl : lineHit rxs o line = false := by
        rw [hhit]; simpa using hk
      obtain ⟨f', r', hsc⟩ :=
        ih (f + (rxs.filter (fun rx => rxSearchB rx t)).length) r hrest
      rw [if_neg hk, hsc]
      refine ⟨f', r', ?_⟩
      have hfilter : (line :: rest).filter (lineHit rxs o) =
          rest.filter (lineHit rxs o) := by
        simp [List.filter, hhl]
      rw [hfilter]

/-- Claim C9: with `doublespace` set (and the verbose diagnostic off),
lookup's output is exactly the matched lines, trailing whitespace
stripped, with exactly one blank separator line before each line except
the first. -/
theorem c9_doublespace (words : List String) (lang : Lang)
    (dict : List String) (o : LOpts) (hd : o.doublespace = true)
    (hv : o.verbose = false) (hnorm : o.norm = false)
    (rxs : List (Bool × List Tok))
    (hrx : (buildPats (words.map (fun w => composeL lang (pyLowerS w)))
      o).mapM compileRx = some rxs)
    (hok : ∀ l ∈ dict, (compTextO o l).isSome = true) :
    lookup words lang dict o =
      .ok (sepBlank ((dict.filter (lineHit rxs o)).map pyRstrip)) := by
  rw [lookup_eval words lang dict o hnorm rxs hrx]
  obtain ⟨f', r', hsc⟩ := scan_sep rxs o hd dict 0 0 hok
  rw [hsc]
  simp [hv]

/-- Witness for C9: spec scenario E with two matching lines, output is
line 1, one blank line, line 2. -/
theorem c9_witness :
    lookup ["hund*"] .esperanto ["hundo /dog", "hundoj /dogs"] epoDouble =
      .ok (sepBlank ((["hundo /dog", "hundoj /dogs"].filter
        (lineHit [(true, litToks "hund".data ++ [Tok.many CC.wordc] ++ sufToks)]
          epoDouble)).map pyRstrip)) ∧
    sepBlank ((["hundo /dog", "hundoj /dogs"].filter
      (lineHit [(true, litToks "hund".data ++ [Tok.many CC.wordc] ++ sufToks)]
        epoDouble)).map pyRstrip) = ["hundo /dog", "", "hundoj /dogs"] :=
  ⟨c9_doublespace ["hund*"] .esperanto ["hundo /dog", "hundoj /dogs"]
    epoDouble rfl rfl rfl _ (by decide) (by decide), by decide⟩

/-! ## Claim C8 -/

theorem getLast?_cons_ne (c : Char) (l : List Char) (hl : l ≠ []) :
    (c :: l).getLast? = l.getLast? := by
  cases l with
  | nil => exact absurd rfl hl
  | cons d l => exact List.getLast?_cons_cons

theorem getLast?_app (a b : List Char) (hb : b ≠ []) :
    (a ++ b).getLast? = b.getLast? := by
  induction a with
  | nil => rfl
  | cons c a ih =>
    simp only [List.cons_append]
    rw [getLast?_cons_ne c (a ++ b) (by simp [hb]), ih]

theorem last_app_star (a : List Char) : (a ++ ['*']).getLast? = some '*' := by
  rw [getLast?_app a ['*'] (by simp)]
  rfl

theorem getLast?_drop_ne (l : List Char) :
    ∀ k : Nat, l.drop k ≠ [] → (l.drop k).getLast? = l.getLast? := by
  induction l with
  | nil => intro k h; simp at h
  | cons c l ih =>
    intro k h
    cases k with
    | zero => rfl
    | succ k =>
      simp only [List.drop] at h ⊢
      rw [ih k h]
      exact (getLast?_cons_ne c l (fun hx => by subst hx; simp at h)).symm

theorem isPfx_length_le : ∀ p s : List Char, isPfx p s = true →
    p.length ≤ s.length := by
  intro p
  induction p with
  | nil => intro s _; simp
  | cons a p ih =>
    intro s h
    cases s with
    | nil => simp [isPfx] at h
    | cons b s =>
      simp only [isPfx, Bool.and_eq_true] at h
      simp only [List.length_cons]
      exact Nat.succ_le_succ (ih s h.2)

theorem isPfx_eq_of_length : ∀ p s : List Char, isPfx p s = true →
    s.length ≤ p.length → p = s := by
  intro p
  induction p with
  | nil =>
    intro s _ hl
    cases s with
    | nil => rfl
    | cons b s => simp at hl
  | cons a p ih =>
    intro s h hl
    cases s with
    | nil => simp [isPfx] at h
    | cons b s =>
      simp only [isPfx, Bool.and_eq_true, decide_eq_true_eq] at h
      simp only [List.length_cons] at hl
      rw [h.1, ih s h.2 (Nat.le_of_succ_le_succ hl)]

theorem pyReplace_head_star (s p t : List Char) (hs : s.head? = some '*')
    (ht : t.head? = some '*') (hp : p ≠ []) :
    (pyReplace s p t).head? = some '*' := by
  cases s with
  | nil => simp at hs
  | cons c s' =>
    have hc : c = '*' := by simpa using hs
    subst hc
    by_cases hm : isPfx p ('*' :: s') = true
    · rw [pr_match _ _ _ _ hp hm]
      cases t with
      | nil => simp at ht
      | cons u t' =>
        have hu : u = '*' := by simpa using ht
        subst hu
        rfl
    · rw [pr_nomatch _ _ _ _ hp (by simpa using hm)]
      rfl

theorem pyReplace_last_star (p t : List Char) (hp : p ≠ [])
    (hlast : p.getLast? ≠ some '*') :
    ∀ (n : Nat) (s : List Char), s.length ≤ n → s ≠ [] →
      s.getLast? = some '*' →
      pyReplace s p t ≠ [] ∧ (pyReplace s p t).getLast? = some '*' := by
  intro n
  induction n with
  | zero =>
    intro s hn hne _
    cases s with
    | nil => exact absurd rfl hne
    | cons c s' => simp at hn
  | succ n ih =>
    intro s hn hne hstar
    cases s with
    | nil => exact absurd rfl hne
    | cons c s' =>
      by_cases hm : isPfx p (c :: s') = true
      · rw [pr_match c s' p t hp hm]
        have hrne : s'.drop (p.length - 1) ≠ [] := by
          intro hx
          have hlen : s'.length ≤ p.length - 1 :=
            List.drop_eq_nil_iff.mp hx
          have hpl : 0 < p.length := List.length_pos.mpr hp
          have hlen2 : (c :: s').length ≤ p.length := by
            simp only [List.length_cons]; omega
          have heq := isPfx_eq_of_length p (c :: s') hm hlen2
          rw [heq] at hlast
          exact hlast hstar
        have hs'ne : s' ≠ [] := by
          intro hx
          rw [hx] at hrne
          simp at hrne
        have hrlast : (s'.drop (p.length - 1)).getLast? = some '*' := by
          rw [getLast?_drop_ne s' (p.length - 1) hrne,
              ← getLast?_cons_ne c s' hs'ne]
          exact hstar
        have hlenr : (s'.drop (p.length - 1)).length ≤ n := by
          rw [List.length_drop]
          simp only [List.length_cons] at hn
          omega
        obtain ⟨hne2, hl2⟩ := ih (s'.drop (p.length - 1)) hlenr hrne hrlast
        exact ⟨by simp [hne2], by rw [getLast?_app t _ hne2, hl2]⟩
      · rw [pr_nomatch c s' p t hp (by simpa using hm)]
        cases hs' : s' with
        | nil =>
          subst hs'
          have hc : c = '*' := by simpa using hstar
          subst hc
          rw [pr_nil]
          exact ⟨by simp, rfl⟩
        | cons d s'' =>
          subst hs'
          have hstar' : (d :: s'').getLast? = some '*' := by
            rw [← getLast?_cons_ne c _ (by simp)]
            exact hstar
          obtain ⟨hne2, hl2⟩ := ih (d :: s'')
            (by simp only [List.length_cons] at hn ⊢; omega) (by simp) hstar'
          exact ⟨by simp, by rw [getLast?_cons_ne c _ hne2, hl2]⟩

/-- Claim C8: for every language variant, `normalize` preserves a leading
or trailing `*` wildcard marker of the query word, in the same position
(and it succeeds on such words: a word carrying a marker is nonempty). -/
theorem c8_normalize_wildcard (lang : Lang) (w : String) :
    (w.data.head? = some '*' →
      ∃ t, normalizeL lang w = some t ∧ t.data.head? = some '*') ∧
    (w.data.getLast? = some '*' →
      ∃ t, normalizeL lang w = some t ∧ t.data.getLast? = some '*') := by
  cases lang
  case english => exact ⟨fun h => ⟨w, rfl, h⟩, fun h => ⟨w, rfl, h⟩⟩
  case lojban => exact ⟨fun h => ⟨w, rfl, h⟩, fun h => ⟨w, rfl, h⟩⟩
  case espanol => exact ⟨fun h => ⟨w, rfl, h⟩, fun h => ⟨w, rfl, h⟩⟩
  case bahasa =>
    constructor
    · intro hh
      refine ⟨bahasaNormalize w, rfl, ?_⟩
      have h1 := pyReplace_head_star w.data "*k".data "*(k|g)".data hh
        (by decide) (by decide)
      have h2 := pyReplace_head_star _ "*p".data "*(p|m)".data h1
        (by decide) (by decide)
      have h3 := pyReplace_head_star _ "*s".data "*(s|ny)".data h2
        (by decide) (by decide)
      exact pyReplace_head_star _ "*t".data "*(t|n)".data h3
        (by decide) (by decide)
    · intro hl
      refine ⟨bahasaNormalize w, rfl, ?_⟩
      have hne : w.data ≠ [] := by
        intro hx
        rw [hx] at hl
        simp at hl
      have h1 := pyReplace_last_star "*k".data "*(k|g)".data (by decide)
        (by decide) w.data.length w.data (Nat.le_refl _) hne hl
      have h2 := pyReplace_last_star "*p".data "*(p|m)".data (by decide)
        (by decide) _ _ (Nat.le_refl _) h1.1 h1.2
      have h3 := pyReplace_last_star "*s".data "*(s|ny)".data (by decide)
        (by decide) _ _ (Nat.le_refl _) h2.1 h2.2
      exact (pyReplace_last_star "*t".data "*(t|n)".data (by decide)
        (by decide) _ _ (Nat.le_refl _) h3.1 h3.2).2
  case esperanto =>
    constructor
    · intro hh
      rcases hdata : w.data with _ | ⟨c, l⟩
      · rw [hdata] at hh; simp at hh
      · rw [hdata] at hh
        have hc : c = '*' := by simpa using hh
        subst hc
        obtain ⟨d, hd⟩ := Option.isSome_iff_exists.mp
          (show (('*' :: l).getLast?).isSome = true from
            List.getLast?_isSome.mpr (by simp))
        show ∃ t, esperantoNormalize w = some t ∧ t.data.head? = some '*'
        unfold esperantoNormalize
        rw [hdata]
        rw [show ('*' :: l).head? = some '*' from rfl, hd]
        dsimp only
        rw [if_pos (rfl : ('*' : Char) = '*')]
        split_ifs <;> exact ⟨_, rfl, rfl⟩
    · intro hl
      rcases hdata : w.data with _ | ⟨c, l⟩
      · rw [hdata] at hl; simp at hl
      · rw [hdata] at hl
        show ∃ t, esperantoNormalize w = some t ∧ t.data.getLast? = some '*'
        unfold esperantoNormalize
        rw [hdata]
        rw [show (c :: l).head? = some c from rfl, hl]
        dsimp only
        rw [if_pos (rfl : ('*' : Char) = '*')]
        split_ifs <;> exact ⟨_, rfl, last_app_star _⟩

/-- Witness for C8: the Esperanto verb pattern "*kuras" with both
markers. -/
theorem c8_witness :
    ∃ t, normalizeL .esperanto "*kuras*" = some t ∧
      t.data.head? = some '*' :=
  (c8_normalize_wildcard .esperanto "*kuras*").1 (by decide)

/-! ## Claim C6 -/

theorem blkJoin_append (g : Char → List Char) :
    ∀ a b : List Char, blkJoin g (a ++ b) = blkJoin g a ++ blkJoin g b := by
  intro a b
  induction a with
  | nil => rfl
  | cons c a ih =>
    simp only [List.cons_append, blkJoin, List.append_eq, ih, List.append_assoc]

theorem blkJoin_comp (g f : Char → List Char) :
    ∀ s : List Char, blkJoin g (blkJoin f s) =
      blkJoin (fun c => blkJoin g (f c)) s := by
  intro s
  induction s with
  | nil => rfl
  | cons c s ih => simp only [blkJoin, blkJoin_append, ih]

theorem blkJoin_congr (f g : Char → List Char) :
    ∀ s : List Char, (∀ c ∈ s, f c = g c) → blkJoin f s = blkJoin g s := by
  intro s
  induction s with
  | nil => intro _; rfl
  | cons c s ih =>
    intro h
    simp only [blkJoin]
    rw [h c (List.mem_cons_self _ _), ih (fun x hx => h x (List.mem_cons_of_mem _ hx))]

theorem blkJoin_id : ∀ s : List Char, blkJoin (fun c => [c]) s = s := by
  intro s
  induction s with
  | nil => rfl
  | cons c s ih => simp only [blkJoin, ih, List.singleton_append]

theorem translate_epoDecomp (s : String) :
    translate s "ĉ    ĝ    ĥ    ĵ    ŝ    ŭ" "c^ g^ h^ j^ s^ u^" =
      pyReplaceS (pyReplaceS (pyReplaceS (pyReplaceS (pyReplaceS (pyReplaceS s
        "ĉ" "c^") "ĝ" "g^") "ĥ" "h^") "ĵ" "j^") "ŝ" "s^") "ŭ" "u^" := by
  have hz : (pySplit "ĉ    ĝ    ĥ    ĵ    ŝ    ŭ").zip
      (pySplit "c^ g^ h^ j^ s^ u^") =
      [("ĉ", "c^"), ("ĝ", "g^"), ("ĥ", "h^"), ("ĵ", "j^"), ("ŝ", "s^"),
       ("ŭ", "u^")] := by decide
  simp [translate, hz]

theorem decomposeEpo_blk (s : String) :
    (decomposeL .esperanto s).data = blkJoin decChar s.data := by
  show (translate s "ĉ    ĝ    ĥ    ĵ    ŝ    ŭ" "c^ g^ h^ j^ s^ u^").data = _
  rw [translate_epoDecomp]
  show pyReplace (pyReplace (pyReplace (pyReplace (pyReplace (pyReplace s.data
    ['ĉ'] ['c', '^']) ['ĝ'] ['g', '^']) ['ĥ'] ['h', '^']) ['ĵ'] ['j', '^'])
    ['ŝ'] ['s', '^']) ['ŭ'] ['u', '^'] = blkJoin decChar s.data
  rw [pyReplace_single 'ĉ' ['c', '^'] s.data,
      pyReplace_single 'ĝ' ['g', '^'] _, blkJoin_comp,
      pyReplace_single 'ĥ' ['h', '^'] _, blkJoin_comp,
      pyReplace_single 'ĵ' ['j', '^'] _, blkJoin_comp,
      pyReplace_single 'ŝ' ['s', '^'] _, blkJoin_comp,
      pyReplace_single 'ŭ' ['u', '^'] _, blkJoin_comp]
  apply blkJoin_congr
  intro c _
  by_cases h1 : c = 'ĉ'
  · subst h1; decide
  by_cases h2 : c = 'ĝ'
  · subst h2; decide
  by_cases h3 : c = 'ĥ'
  · subst h3; decide
  by_cases h4 : c = 'ĵ'
  · subst h4; decide
  by_cases h5 : c = 'ŝ'
  · subst h5; decide
  by_cases h6 : c = 'ŭ'
  · subst h6; decide
  simp only [blkJoin, decChar, if_neg h1, if_neg h2, if_neg h3, if_neg h4,
    if_neg h5, if_neg h6, List.append_nil]

theorem epoLetter_cases (d : Char) (h : epoLetter d = true) :
    d = 'ĉ' ∨ d = 'ĝ' ∨ d = 'ĥ' ∨ d = 'ĵ' ∨ d = 'ŝ' ∨ d = 'ŭ' ∨
      (97 ≤ d.toNat ∧ d.toNat ≤ 122) := by
  simp only [epoLetter, Bool.or_eq_true, decide_eq_true_eq] at h
  tauto

theorem epoLetter_ne_caret (d : Char) (h : epoLetter d = true) : d ≠ '^' := by
  intro hx
  subst hx
  exact absurd h (by decide)

theorem decChar_ascii (d : Char) (h : 97 ≤ d.toNat ∧ d.toNat ≤ 122) :
    decChar d = [d] := by
  have h1 : d ≠ 'ĉ' := fun hx => by subst hx; exact absurd h (by decide)
  have h2 : d ≠ 'ĝ' := fun hx => by subst hx; exact absurd h (by decide)
  have h3 : d ≠ 'ĥ' := fun hx => by subst hx; exact absurd h (by decide)
  have h4 : d ≠ 'ĵ' := fun hx => by subst hx; exact absurd h (by decide)
  have h5 : d ≠ 'ŝ' := fun hx => by subst hx; exact absurd h (by decide)
  have h6 : d ≠ 'ŭ' := fun hx => by subst hx; exact absurd h (by decide)
  simp only [decChar, if_neg h1, if_neg h2, if_neg h3, if_neg h4, if_neg h5,
    if_neg h6]

theorem decChar_uniq (l δ : Char)
    (hm : ∀ e ∈ (['ĉ', 'ĝ', 'ĥ', 'ĵ', 'ŝ', 'ŭ'] : List Char),
      e ≠ δ → decChar e ≠ [l, '^']) :
    ∀ d, epoLetter d = true → d ≠ δ → decChar d ≠ [l, '^'] := by
  intro d hd hne
  rcases epoLetter_cases d hd with h | h | h | h | h | h | h
  · subst h; exact hm 'ĉ' (by decide) hne
  · subst h; exact hm 'ĝ' (by decide) hne
  · subst h; exact hm 'ĥ' (by decide) hne
  · subst h; exact hm 'ĵ' (by decide) hne
  · subst h; exact hm 'ŝ' (by decide) hne
  · subst h; exact hm 'ŭ' (by decide) hne
  · rw [decChar_ascii d h]; simp

theorem blkJoin_head (g : Char → List Char) (P : Char → Bool)
    (hblk : ∀ d, P d = true →
      (∃ x, g d = [x] ∧ x ≠ '^') ∨ (∃ y, g d = [y, '^'] ∧ y ≠ '^')) :
    ∀ s : List Char, (∀ c ∈ s, P c = true) →
      ∀ r : List Char, blkJoin g s ≠ '^' :: r := by
  intro s
  induction s with
  | nil => intro _ r h; simp [blkJoin] at h
  | cons c s ih =>
    intro hs r h
    rcases hblk c (hs c (List.mem_cons_self _ _)) with ⟨x, hg, hx⟩ | ⟨y, hg, hy⟩
    · simp only [blkJoin, hg, List.singleton_append] at h
      injection h with h1 _
      exact hx h1
    · simp only [blkJoin, hg, List.cons_append, List.nil_append] at h
      injection h with h1 _
      exact hy h1

theorem repl_block (g : Char → List Char) (P : Char → Bool) (l δ : Char)
    (hl : l ≠ '^') (hδ : g δ = [l, '^'])
    (hblk : ∀ d, P d = true →
      (∃ x, g d = [x] ∧ x ≠ '^') ∨ (∃ y, g d = [y, '^'] ∧ y ≠ '^'))
    (huniq : ∀ d, P d = true → d ≠ δ → g d ≠ [l, '^']) :
    ∀ s : List Char, (∀ c ∈ s, P c = true) →
      pyReplace (blkJoin g s) [l, '^'] [δ] =
        blkJoin (fun d => if d = δ then [δ] else g d) s := by
  intro s
  induction s with
  | nil => intro _; exact pr_nil [l, '^'] [δ]
  | cons c s ih =>
    intro hs
    have hc := hs c (List.mem_cons_self _ _)
    have hs' : ∀ x ∈ s, P x = true := fun x hx => hs x (List.mem_cons_of_mem _ hx)
    have hhead := blkJoin_head g P hblk s hs'
    have htail : isPfx ['^'] (blkJoin g s) = false := by
      cases hrest : blkJoin g s with
      | nil => rfl
      | cons e r =>
        have he : e ≠ '^' := fun hee => hhead r (by rw [hrest, hee])
        simp [isPfx, Ne.symm he]
    rcases hblk c hc with ⟨x, hg, hx⟩ | ⟨y, hg, hy⟩
    · have hcδ : c ≠ δ := fun he => by rw [he, hδ] at hg; simp at hg
      have hb : blkJoin g (c :: s) = x :: blkJoin g s := by
        simp only [blkJoin, hg, List.singleton_append]
      rw [hb]
      have hno : isPfx [l, '^'] (x :: blkJoin g s) = false := by
        simp [isPfx, htail]
      rw [pr_nomatch x (blkJoin g s) [l, '^'] [δ] (by simp) hno, ih hs']
      simp only [blkJoin]
      rw [if_neg hcδ, hg, List.singleton_append]
    · have hb : blkJoin g (c :: s) = y :: '^' :: blkJoin g s := by
        simp only [blkJoin, hg, List.cons_append, List.nil_append]
      rw [hb]
      by_cases hcδ : c = δ
      · have hyl : y = l := by
          have h2 := hδ.symm.trans (hcδ ▸ hg)
          injection h2 with ha _
          exact ha.symm
        rw [hyl]
        have hm : isPfx [l, '^'] (l :: '^' :: blkJoin g s) = true := by
          simp [isPfx]
        rw [pr_match l ('^' :: blkJoin g s) [l, '^'] [δ] (by simp) hm]
        have hdrop :
            ('^' :: blkJoin g s).drop (List.length [l, '^'] - 1) =
              blkJoin g s := rfl
        rw [hdrop, ih hs']
        simp only [blkJoin]
        rw [if_pos hcδ]
      · have hyl : y ≠ l := fun he => huniq c hc hcδ (by rw [hg, he])
        have hno1 : isPfx [l, '^'] (y :: '^' :: blkJoin g s) = false := by
          simp [isPfx, Ne.symm hyl]
        rw [pr_nomatch y ('^' :: blkJoin g s) [l, '^'] [δ] (by simp) hno1]
        have hno2 : isPfx [l, '^'] ('^' :: blkJoin g s) = false := by
          simp [isPfx, hl]
        rw [pr_nomatch '^' (blkJoin g s) [l, '^'] [δ] (by simp) hno2, ih hs']
        simp only [blkJoin]
        rw [if_neg hcδ, hg]
        simp

theorem repl_pass (done : List Char) (l δ : Char)
    (hmem : δ ∉ done) (hpair : decChar δ = [l, '^']) (hl : l ≠ '^')
    (huniqd : ∀ d, epoLetter d = true → d ≠ δ → decChar d ≠ [l, '^'])
    (s : List Char) (hs : ∀ c ∈ s, epoLetter c = true) :
    pyReplace (blkJoin (decCharAfter done) s) [l, '^'] [δ] =
      blkJoin (decCharAfter (δ :: done)) s := by
  have h1 : decCharAfter done δ = [l, '^'] := by
    simp only [decCharAfter, if_neg hmem, hpair]
  have h2 : ∀ d, epoLetter d = true →
      (∃ x, decCharAfter done d = [x] ∧ x ≠ '^') ∨
      (∃ y, decCharAfter done d = [y, '^'] ∧ y ≠ '^') := by
    intro d hd
    by_cases hdm : d ∈ done
    · exact Or.inl ⟨d, by simp [decCharAfter, hdm], epoLetter_ne_caret d hd⟩
    · simp only [decCharAfter, if_neg hdm]
      rcases epoLetter_cases d hd with h | h | h | h | h | h | h
      · exact Or.inr ⟨'c', by subst h; decide, by decide⟩
      · exact Or.inr ⟨'g', by subst h; decide, by decide⟩
      · exact Or.inr ⟨'h', by subst h; decide, by decide⟩
      · exact Or.inr ⟨'j', by subst h; decide, by decide⟩
      · exact Or.inr ⟨'s', by subst h; decide, by decide⟩
      · exact Or.inr ⟨'u', by subst h; decide, by decide⟩
      · exact Or.inl ⟨d, decChar_ascii d h,
          fun he => by subst he; exact absurd h (by decide)⟩
  have h3 : ∀ d, epoLetter d = true → d ≠ δ →
      decCharAfter done d ≠ [l, '^'] := by
    intro d hd hne
    by_cases hdm : d ∈ done
    · simp [decCharAfter, hdm]
    · simp only [decCharAfter, if_neg hdm]
      exact huniqd d hd hne
  rw [repl_block (decCharAfter done) epoLetter l δ hl h1 h2 h3 s hs]
  apply blkJoin_congr
  intro c _
  by_cases hc : c = δ
  · subst hc; simp [decCharAfter]
  · rw [if_neg hc]
    simp only [decCharAfter, List.mem_cons]
    by_cases hcd : c ∈ done
    · rw [if_pos hcd, if_pos (Or.inr hcd)]
    · rw [if_neg hcd, if_neg (by simp [hc, hcd])]

theorem decCharAfter_full (s : List Char)
    (hs : ∀ c ∈ s, epoLetter c = true) :
    blkJoin (decCharAfter ['ŭ', 'ŝ', 'ĵ', 'ĥ', 'ĝ', 'ĉ']) s = s := by
  rw [blkJoin_congr _ (fun c => [c]) s ?_, blkJoin_id]
  intro c hc
  rcases epoLetter_cases c (hs c hc) with h | h | h | h | h | h | h
  · subst h; decide
  · subst h; decide
  · subst h; decide
  · subst h; decide
  · subst h; decide
  · subst h; decide
  · have hnm : c ∉ (['ŭ', 'ŝ', 'ĵ', 'ĥ', 'ĝ', 'ĉ'] : List Char) := by
      intro hm
      simp only [List.mem_cons, List.not_mem_nil, or_false] at hm
      rcases hm with h1 | h1 | h1 | h1 | h1 | h1 <;>
        (subst h1; exact absurd h (by decide))
    simp only [decCharAfter, if_neg hnm]
    exact decChar_ascii c h

theorem composeCaret_restores (s : String)
    (hs : ∀ c ∈ s.data, epoLetter c = true) :
    pyReplaceS (pyReplaceS (pyReplaceS (pyReplaceS (pyReplaceS (pyReplaceS
      (decomposeL .esperanto s) "c^" "ĉ") "g^" "ĝ") "h^" "ĥ") "j^" "ĵ")
      "s^" "ŝ") "u^" "ŭ" = s := by
  have h0 : (decomposeL .esperanto s).data =
      blkJoin (decCharAfter []) s.data := by
    rw [decomposeEpo_blk]
    exact blkJoin_congr _ _ s.data (fun c _ => by simp [decCharAfter])
  have p1 := repl_pass [] 'c' 'ĉ' (by decide) (by decide) (by decide)
    (decChar_uniq 'c' 'ĉ' (by decide)) s.data hs
  have p2 := repl_pass ['ĉ'] 'g' 'ĝ' (by decide) (by decide) (by decide)
    (decChar_uniq 'g' 'ĝ' (by decide)) s.data hs
  have p3 := repl_pass ['ĝ', 'ĉ'] 'h' 'ĥ' (by decide) (by decide) (by decide)
    (decChar_uniq 'h' 'ĥ' (by decide)) s.data hs
  have p4 := repl_pass ['ĥ', 'ĝ', 'ĉ'] 'j' 'ĵ' (by decide) (by decide)
    (by decide) (decChar_uniq 'j' 'ĵ' (by decide)) s.data hs
  have p5 := repl_pass ['ĵ', 'ĥ', 'ĝ', 'ĉ'] 's' 'ŝ' (by decide) (by decide)
    (by decide) (decChar_uniq 's' 'ŝ' (by decide)) s.data hs
  have p6 := repl_pass ['ŝ', 'ĵ', 'ĥ', 'ĝ', 'ĉ'] 'u' 'ŭ' (by decide)
    (by decide) (by decide) (decChar_uniq 'u' 'ŭ' (by decide)) s.data hs
  have hfull := decCharAfter_full s.data hs
  have hd1 : ("c^" : String).data = ['c', '^'] := rfl
  have hd2 : ("g^" : String).data = ['g', '^'] := rfl
  have hd3 : ("h^" : String).data = ['h', '^'] := rfl
  have hd4 : ("j^" : String).data = ['j', '^'] := rfl
  have hd5 : ("s^" : String).data = ['s', '^'] := rfl
  have hd6 : ("u^" : String).data = ['u', '^'] := rfl
  have ht1 : ("ĉ" : String).data = ['ĉ'] := rfl
  have ht2 : ("ĝ" : String).data = ['ĝ'] := rfl
  have ht3 : ("ĥ" : String).data = ['ĥ'] := rfl
  have ht4 : ("ĵ" : String).data = ['ĵ'] := rfl
  have ht5 : ("ŝ" : String).data = ['ŝ'] := rfl
  have ht6 : ("ŭ" : String).data = ['ŭ'] := rfl
  have hmk : ∀ l : List Char, (String.mk l).data = l := fun _ => rfl
  simp only [pyReplaceS, hd1, hd2, hd3, hd4, hd5, hd6, ht1, ht2, ht3, ht4,
    ht5, ht6, hmk]
  rw [h0, p1, p2, p3, p4, p5, p6, hfull]

/-- Claim C6, corrected.  The claim asserts `compose (decompose s) = s` for
every Esperanto string over the six diacritic letters and lowercase ASCII;
that fails for strings containing an escape digraph (see the
counterexample).  Amended statement: the round trip is the identity for
every string over that alphabet that contains none of the digraphs
cx gx hx jx sx ux. -/
theorem c6_roundtrip (s : String)
    (hs : ∀ c ∈ s.data, epoLetter c = true)
    (hd : noDigraphs s.data = true) :
    composeL .esperanto (decomposeL .esperanto s) = s := by
  simp only [noDigraphs, Bool.and_eq_true, Bool.not_eq_true'] at hd
  obtain ⟨⟨⟨⟨⟨hx1, hx2⟩, hx3⟩, hx4⟩, hx5⟩, hx6⟩ := hd
  show (translate (translate (decomposeL .esperanto s)
      "c^ g^ h^ j^ s^ u^" "ĉ ĝ ĥ ĵ ŝ ŭ") "cx gx hx jx sx ux" "ĉ ĝ ĥ ĵ ŝ ŭ") = s
  rw [translate_epoCaret, composeCaret_restores s hs, translate_epoX]
  rw [pyReplaceS_id s _ _ (by decide) hx1, pyReplaceS_id s _ _ (by decide) hx2,
      pyReplaceS_id s _ _ (by decide) hx3, pyReplaceS_id s _ _ (by decide) hx4,
      pyReplaceS_id s _ _ (by decide) hx5, pyReplaceS_id s _ _ (by decide) hx6]

/-- Counterexample to claim C6 as stated: the word "cx" consists only of
lowercase ASCII letters, yet `compose (decompose "cx")` is "ĉ", because the
compose pass also rewrites the escape digraph `cx` that was present in the
original text. -/
theorem c6_counterexample :
    (∀ c ∈ ("cx" : String).data, epoLetter c = true) ∧
      composeL .esperanto (decomposeL .esperanto "cx") = "ĉ" ∧
      ("ĉ" : String) ≠ "cx" := by decide

/-- Witness for the amended C6: a digraph-free word over the claimed
alphabet round-trips. -/
theorem c6_witness :
    composeL .esperanto (decomposeL .esperanto "ĉashundo") = "ĉashundo" :=
  c6_roundtrip "ĉashundo" (by decide) (by decide)

end Condic
